import Mathlib

/-!
Verification of the order-book core of `stock_engine.py`.

The heap of `Order` objects is modelled as a list indexed by allocation
order (an order's index is its identity); pointers (`head`, `next`) are
`Option Nat` indices into that heap.  Loops over the linked list from the
source are modelled as fuel-indexed recursions returning `none` when the
fuel runs out or a pointer dangles; on well-formed books the fuel
`orders.length` is always enough and these functions return `some`.
-/

namespace StockEngine

/-- `OrderType` from the source: the side of an order. -/
inductive OrderType where
  | BUY
  | SELL
deriving DecidableEq

/-- `Order` from the source.  `type`, `ticker`, `quantity`, `price` are the
object's fields; `next` is the simulated atomic pointer to the next order
(an index into the book's heap, or `none`). -/
structure Order where
  type : OrderType
  ticker : Int
  quantity : Int
  price : Int
  next : Option Nat
deriving DecidableEq

/-- `Order.__init__`: the requested quantity is coerced with `max(1, quantity)`;
the `next` pointer starts as `None`. -/
def Order.init (order_type : OrderType) (ticker quantity price : Int) : Order :=
  { type := order_type, ticker := ticker, quantity := max 1 quantity,
    price := price, next := none }

/-- The order book: the heap of all constructed orders plus the shared head
pointer of the singly linked list. -/
structure OrderBook where
  orders : List Order
  head : Option Nat
deriving DecidableEq

/-- `OrderBook.__init__`: empty heap, `head = None`. -/
def OrderBook.empty : OrderBook := { orders := [], head := none }

/-- Constructing an `Order` object without inserting it into the book:
the new object is appended to the heap and its index returned. -/
def alloc (book : OrderBook) (o : Order) : OrderBook × Nat :=
  ({ book with orders := book.orders ++ [o] }, book.orders.length)

/-- `OrderBook.add_order`: set `order.next` to the current head and CAS the
head to the order.  Sequentially the CAS always succeeds on the first try. -/
def add_order (book : OrderBook) (i : Nat) : OrderBook :=
  match book.orders[i]? with
  | none => book
  | some o =>
      { orders := book.orders.set i { o with next := book.head }, head := some i }

/-- Construct an order and insert it, as the `TradingEngine` workers do. -/
def addNew (book : OrderBook) (o : Order) : OrderBook :=
  add_order (alloc book o).1 (alloc book o).2

/-- The eligibility test of `match_order` (lines 78-81): same ticker,
opposite sides, and a crossing price. -/
def eligible (incoming cur : Order) : Bool :=
  (decide (incoming.type = OrderType.BUY) && decide (cur.type = OrderType.SELL) &&
     decide (cur.ticker = incoming.ticker) && decide (cur.price ≤ incoming.price))
  || (decide (incoming.type = OrderType.SELL) && decide (cur.type = OrderType.BUY) &&
     decide (cur.ticker = incoming.ticker) && decide (incoming.price ≤ cur.price))

/-- The strict best-price replacement test of `match_order` (lines 85-87). -/
def betterThan (incoming cur best : Order) : Bool :=
  (decide (incoming.type = OrderType.BUY) && decide (cur.price < best.price))
  || (decide (incoming.type = OrderType.SELL) && decide (best.price < cur.price))

/-- The search phase of `match_order` (lines 65-93): walk the list from
`cur`, skip nodes with `quantity <= 0`, keep the strictly best eligible
candidate together with the value of `prev` at the moment it was kept.
The accumulator `best` carries the candidate's index and its object value
(no mutation happens during the scan, so the value stays current). -/
def findLoop (orders : List Order) (incoming : Order) (fuel : Nat)
    (cur prev : Option Nat) (best : Option (Nat × Order)) (bestPrev : Option Nat) :
    Option (Option (Nat × Order) × Option Nat) :=
  match cur with
  | none => some (best, bestPrev)
  | some c =>
    match fuel with
    | 0 => none
    | fuel + 1 =>
      match orders[c]? with
      | none => none
      | some o =>
        if o.quantity ≤ 0 then
          findLoop orders incoming fuel o.next prev best bestPrev
        else
          if eligible incoming o &&
              (match best with
               | none => true
               | some b => betterThan incoming o b.2) then
            findLoop orders incoming fuel o.next (some c) (some (c, o)) prev
          else
            findLoop orders incoming fuel o.next (some c) best bestPrev

/-- A trade record, as logged at line 105: the matched candidate (whose
display string is printed), the traded quantity, and the execution price
(the candidate's price). -/
structure Trade where
  candidate : Nat
  qty : Int
  price : Int
deriving DecidableEq

/-- Write a new `next` pointer into heap slot `i` (the assignment
`best_match_prev.next = best_match.next` of line 117). -/
def setNext (orders : List Order) (i : Nat) (nxt : Option Nat) : List Order :=
  match orders[i]? with
  | none => orders
  | some o => orders.set i { o with next := nxt }

/-- `OrderBook.match_order` (lines 60-119): search for the best candidate,
then trade `min(incoming.quantity, best_match.quantity)` and unlink the
candidate when it is fully consumed.  Returns the updated book, the boolean
result of the source function, and the trade record (if any was logged). -/
def match_order (book : OrderBook) (incomingId : Nat) (fuel : Nat) :
    Option (OrderBook × Bool × Option Trade) :=
  match book.orders[incomingId]? with
  | none => none
  | some incoming =>
    match findLoop book.orders incoming fuel book.head none none none with
    | none => none
    | some (none, _) => some (book, false, none)
    | some (some (bestId, best), bestPrevId) =>
      let traded := min incoming.quantity best.quantity
      if traded = 0 then some (book, false, none)
      else
        let orders1 := book.orders.set incomingId
          { incoming with quantity := incoming.quantity - traded }
        match orders1[bestId]? with
        | none => none
        | some b1 =>
          let b2 := { b1 with quantity := b1.quantity - traded }
          let orders2 := orders1.set bestId b2
          let book2 : OrderBook :=
            if b2.quantity = 0 then
              match bestPrevId with
              | none =>
                if book.head = some bestId then { orders := orders2, head := b2.next }
                else { orders := orders2, head := book.head }
              | some p => { orders := setNext orders2 p b2.next, head := book.head }
            else { orders := orders2, head := book.head }
          some (book2, true, some { candidate := bestId, qty := traded, price := best.price })

/-- The scan loop of `OrderBook.process_orders` (lines 121-131): walk from
`cur`, attempt a match for every node with positive quantity, restart from
the head whenever a trade occurred, otherwise advance.  The inner
`match_order` scan receives fuel `book.orders.length`, which is enough on
every well-formed book. -/
def processLoop (book : OrderBook) (cur : Option Nat) (acc : List Trade) (fuel : Nat) :
    Option (OrderBook × List Trade) :=
  match cur with
  | none => some (book, acc.reverse)
  | some c =>
    match fuel with
    | 0 => none
    | fuel + 1 =>
      match book.orders[c]? with
      | none => none
      | some o =>
        if 0 < o.quantity then
          match match_order book c book.orders.length with
          | none => none
          | some (book', true, tr) => processLoop book' book'.head (tr.toList ++ acc) fuel
          | some (book', false, _) => processLoop book' o.next acc fuel
        else
          processLoop book o.next acc fuel

/-- `OrderBook.process_orders`: run the matching sweep from the head. -/
def process_orders (book : OrderBook) (fuel : Nat) : Option (OrderBook × List Trade) :=
  processLoop book book.head [] fuel

/-- The loop of `OrderBook.get_order_list` (lines 154-162): collect every
node reachable from `cur`, with no quantity filter. -/
def orderListLoop (orders : List Order) (cur : Option Nat) (fuel : Nat) :
    Option (List Nat) :=
  match cur with
  | none => some []
  | some c =>
    match fuel with
    | 0 => none
    | fuel + 1 =>
      match orders[c]? with
      | none => none
      | some o => (orderListLoop orders o.next fuel).map (fun l => c :: l)

/-- `OrderBook.get_order_list`: the list of orders currently in the book. -/
def get_order_list (book : OrderBook) (fuel : Nat) : Option (List Nat) :=
  orderListLoop book.orders book.head fuel

/-- The loop of `OrderBook.display` (lines 133-148): collect the row of
every reachable node whose quantity is positive.  We record the node's
index rather than its formatted string. -/
def displayLoop (orders : List Order) (cur : Option Nat) (fuel : Nat) :
    Option (List Nat) :=
  match cur with
  | none => some []
  | some c =>
    match fuel with
    | 0 => none
    | fuel + 1 =>
      match orders[c]? with
      | some o =>
        if 0 < o.quantity then (displayLoop orders o.next fuel).map (fun l => c :: l)
        else displayLoop orders o.next fuel
      | none => none

/-- The rows displayed by `OrderBook.display`. -/
def display_rows (book : OrderBook) (fuel : Nat) : Option (List Nat) :=
  displayLoop book.orders book.head fuel

/-- `OrderBook.reset`: clear the head pointer. -/
def reset (book : OrderBook) : OrderBook := { book with head := none }

/-- Proof-side view of the linked list: the chain of `(index, order)` pairs
reachable from `cur`. -/
def chainPairs (orders : List Order) (cur : Option Nat) (fuel : Nat) :
    Option (List (Nat × Order)) :=
  match cur with
  | none => some []
  | some c =>
    match fuel with
    | 0 => none
    | fuel + 1 =>
      match orders[c]? with
      | none => none
      | some o => (chainPairs orders o.next fuel).map (fun l => (c, o) :: l)

/-!  Proof layer: a pure view of the search phase over the materialised
chain, and characterisations of the loops. -/

/-- The search phase as a pure function over the chain contents: the exact
branch structure of `findLoop`, with the pointer walk replaced by list
recursion. -/
def scanList (incoming : Order) : List (Nat × Order) → Option Nat →
    Option (Nat × Order) → Option Nat → Option (Nat × Order) × Option Nat
  | [], _, best, bestPrev => (best, bestPrev)
  | x :: rest, prev, best, bestPrev =>
    if x.2.quantity ≤ 0 then
      scanList incoming rest prev best bestPrev
    else
      if eligible incoming x.2 &&
          (match best with
           | none => true
           | some b => betterThan incoming x.2 b.2) then
        scanList incoming rest (some x.1) (some x) prev
      else
        scanList incoming rest (some x.1) best bestPrev

/-- The eligibility condition of the specification, stated in its words:
same instrument, opposite side, crossing price. -/
def EligibleSpec (incoming cand : Order) : Prop :=
  cand.ticker = incoming.ticker ∧
  ((incoming.type = OrderType.BUY ∧ cand.type = OrderType.SELL ∧
      cand.price ≤ incoming.price) ∨
   (incoming.type = OrderType.SELL ∧ cand.type = OrderType.BUY ∧
      incoming.price ≤ cand.price))

instance instDecEligibleSpec (incoming cand : Order) : Decidable (EligibleSpec incoming cand) :=
  inferInstanceAs (Decidable (_ ∧ _))

/-- A scanned node that the search phase may keep: positive remaining
quantity and eligible against the incoming order. -/
def posElig (incoming : Order) (x : Nat × Order) : Prop :=
  0 < x.2.quantity ∧ EligibleSpec incoming x.2

instance instDecPosElig (incoming : Order) (x : Nat × Order) : Decidable (posElig incoming x) :=
  inferInstanceAs (Decidable (_ ∧ _))

/-- The strict price-improvement order used by the scan: a candidate at
price `p` strictly beats one at price `q`. -/
def strictlyBetter (incoming : Order) (p q : Int) : Prop :=
  (incoming.type = OrderType.BUY ∧ p < q) ∨ (incoming.type = OrderType.SELL ∧ q < p)

instance instDecStrictlyBetter (incoming : Order) (p q : Int) :
    Decidable (strictlyBetter incoming p q) :=
  inferInstanceAs (Decidable (_ ∨ _))

/-- The value the scan's `prev` variable holds after walking `l` starting
from `prev`: the most recently scanned node with positive quantity. -/
def lastPosFrom (prev : Option Nat) : List (Nat × Order) → Option Nat
  | [] => prev
  | x :: rest =>
    if 0 < x.2.quantity then lastPosFrom (some x.1) rest else lastPosFrom prev rest

theorem eligible_iff (incoming cur : Order) :
    eligible incoming cur = true ↔ EligibleSpec incoming cur := by
  cases hi : incoming.type <;> cases hc : cur.type <;>
    simp [eligible, EligibleSpec, hi, hc, and_comm]

theorem betterThan_iff (incoming cur best : Order) :
    betterThan incoming cur best = true ↔
      strictlyBetter incoming cur.price best.price := by
  cases hi : incoming.type <;> simp [betterThan, strictlyBetter, hi]

theorem strictlyBetter_trans {incoming : Order} {a b c : Int}
    (h1 : strictlyBetter incoming a b) (h2 : strictlyBetter incoming b c) :
    strictlyBetter incoming a c := by
  rcases h1 with ⟨ht, h1⟩ | ⟨ht, h1⟩ <;> rcases h2 with ⟨ht2, h2⟩ | ⟨ht2, h2⟩
  · exact Or.inl ⟨ht, h1.trans h2⟩
  · rw [ht] at ht2; exact absurd ht2 (by simp)
  · rw [ht] at ht2; exact absurd ht2 (by simp)
  · exact Or.inr ⟨ht, h2.trans h1⟩

theorem strictlyBetter_not_right {incoming : Order} {a y : Int} (b : Int)
    (h1 : strictlyBetter incoming b a) (h2 : ¬ strictlyBetter incoming y a) :
    strictlyBetter incoming b y := by
  rcases h1 with ⟨ht, h1⟩ | ⟨ht, h1⟩
  · exact Or.inl ⟨ht, lt_of_lt_of_le h1 (not_lt.mp fun hy => h2 (Or.inl ⟨ht, hy⟩))⟩
  · exact Or.inr ⟨ht, lt_of_le_of_lt (not_lt.mp fun hy => h2 (Or.inr ⟨ht, hy⟩)) h1⟩

theorem strictlyBetter_irrefl (incoming : Order) (a : Int) :
    ¬ strictlyBetter incoming a a := by
  rintro (⟨_, h⟩ | ⟨_, h⟩) <;> exact lt_irrefl _ h

theorem chainPairs_mem_lookup (orders : List Order) :
    ∀ (fuel : Nat) (cur : Option Nat) (l : List (Nat × Order)),
      chainPairs orders cur fuel = some l →
      ∀ x ∈ l, orders[x.1]? = some x.2 := by
  intro fuel
  induction fuel with
  | zero =>
    intro cur l h x hx
    cases cur with
    | none => simp [chainPairs] at h; subst h; simp at hx
    | some c => simp [chainPairs] at h
  | succ fuel ih =>
    intro cur l h x hx
    cases cur with
    | none => simp [chainPairs] at h; subst h; simp at hx
    | some c =>
      simp only [chainPairs] at h
      cases ho : orders[c]? with
      | none => rw [ho] at h; simp at h
      | some o =>
        rw [ho] at h
        rcases Option.map_eq_some'.mp h with ⟨l', hl', hEq⟩
        subst hEq
        rcases List.mem_cons.mp hx with hx | hx
        · subst hx; exact ho
        · exact ih _ _ hl' x hx

theorem chainPairs_length_le (orders : List Order) :
    ∀ (fuel : Nat) (cur : Option Nat) (l : List (Nat × Order)),
      chainPairs orders cur fuel = some l → l.length ≤ fuel := by
  intro fuel
  induction fuel with
  | zero =>
    intro cur l h
    cases cur with
    | none => simp [chainPairs] at h; subst h; simp
    | some c => simp [chainPairs] at h
  | succ fuel ih =>
    intro cur l h
    cases cur with
    | none => simp [chainPairs] at h; subst h; simp
    | some c =>
      simp only [chainPairs] at h
      cases ho : orders[c]? with
      | none => rw [ho] at h; simp at h
      | some o =>
        rw [ho] at h
        rcases Option.map_eq_some'.mp h with ⟨l', hl', hEq⟩
        subst hEq
        simpa using Nat.succ_le_succ (ih _ _ hl')

theorem chainPairs_mono (orders : List Order) :
    ∀ (fuel fuel' : Nat) (cur : Option Nat) (l : List (Nat × Order)),
      chainPairs orders cur fuel = some l → fuel ≤ fuel' →
      chainPairs orders cur fuel' = some l := by
  intro fuel
  induction fuel with
  | zero =>
    intro fuel' cur l h _
    cases cur with
    | none => simp [chainPairs] at h; subst h; simp [chainPairs]
    | some c => simp [chainPairs] at h
  | succ fuel ih =>
    intro fuel' cur l h hle
    cases cur with
    | none => simp [chainPairs] at h; subst h; simp [chainPairs]
    | some c =>
      simp only [chainPairs] at h
      cases ho : orders[c]? with
      | none => rw [ho] at h; simp at h
      | some o =>
        rw [ho] at h
        rcases Option.map_eq_some'.mp h with ⟨l', hl', hEq⟩
        subst hEq
        obtain ⟨fuel'', rfl⟩ : ∃ k, fuel' = k + 1 :=
          ⟨fuel' - 1, by omega⟩
        simp only [chainPairs, ho]
        rw [ih _ _ _ hl' (by omega)]
        rfl

/-- Splitting a chain at an element: the tail of the chain continues from
that element's `next` pointer. -/
theorem chainPairs_drop (orders : List Order) :
    ∀ (l1 : List (Nat × Order)) (fuel : Nat) (cur : Option Nat)
      (x : Nat × Order) (l2 : List (Nat × Order)),
      chainPairs orders cur fuel = some (l1 ++ x :: l2) →
      chainPairs orders x.2.next (fuel - l1.length - 1) = some l2 := by
  intro l1
  induction l1 with
  | nil =>
    intro fuel cur x l2 h
    cases cur with
    | none => simp [chainPairs] at h
    | some c =>
      cases fuel with
      | zero => simp [chainPairs] at h
      | succ fuel =>
        simp only [chainPairs] at h
        cases ho : orders[c]? with
        | none => rw [ho] at h; simp at h
        | some o =>
          rw [ho] at h
          rcases Option.map_eq_some'.mp h with ⟨l', hl', hEq⟩
          simp only [List.nil_append] at hEq
          rcases List.cons.injEq .. ▸ hEq with ⟨h1, h2⟩
          subst h2
          rw [← h1]
          simpa using hl'
  | cons y l1 ih =>
    intro fuel cur x l2 h
    cases cur with
    | none => simp [chainPairs] at h
    | some c =>
      cases fuel with
      | zero => simp [chainPairs] at h
      | succ fuel =>
        simp only [chainPairs] at h
        cases ho : orders[c]? with
        | none => rw [ho] at h; simp at h
        | some o =>
          rw [ho] at h
          rcases Option.map_eq_some'.mp h with ⟨l', hl', hEq⟩
          simp only [List.cons_append] at hEq
          rcases List.cons.injEq .. ▸ hEq with ⟨_, h2⟩
          subst h2
          have := ih fuel o.next x l2 hl'
          simpa [Nat.succ_sub_one] using this

/-- Walking the same pointers in a heap whose `next` fields agree on the
chain gives a chain with the same node indices. -/
theorem chainPairs_transport (orders orders' : List Order) :
    ∀ (fuel : Nat) (cur : Option Nat) (l : List (Nat × Order)),
      chainPairs orders cur fuel = some l →
      (∀ x ∈ l, ∃ o', orders'[x.1]? = some o' ∧ o'.next = x.2.next) →
      ∃ l', chainPairs orders' cur fuel = some l' ∧
        l'.map Prod.fst = l.map Prod.fst := by
  intro fuel
  induction fuel with
  | zero =>
    intro cur l h hagree
    cases cur with
    | none => simp [chainPairs] at h; subst h; exact ⟨[], by simp [chainPairs]⟩
    | some c => simp [chainPairs] at h
  | succ fuel ih =>
    intro cur l h hagree
    cases cur with
    | none => simp [chainPairs] at h; subst h; exact ⟨[], by simp [chainPairs]⟩
    | some c =>
      simp only [chainPairs] at h
      cases ho : orders[c]? with
      | none => rw [ho] at h; simp at h
      | some o =>
        rw [ho] at h
        rcases Option.map_eq_some'.mp h with ⟨l', hl', hEq⟩
        subst hEq
        rcases hagree (c, o) (List.mem_cons_self _ _) with ⟨o', ho', hnx⟩
        rcases ih o.next l' hl' (fun x hx => hagree x (List.mem_cons_of_mem _ hx)) with
          ⟨l'', hl'', hmap⟩
        refine ⟨(c, o') :: l'', ?_, by simp [hmap]⟩
        simp only [chainPairs, ho', hnx, hl'']
        rfl

/-- The pointer-walking search phase computes exactly the pure scan of the
materialised chain. -/
theorem findLoop_eq_scanList (orders : List Order) (incoming : Order) :
    ∀ (fuel : Nat) (cur : Option Nat) (l : List (Nat × Order))
      (prev : Option Nat) (best : Option (Nat × Order)) (bp : Option Nat),
      chainPairs orders cur fuel = some l →
      findLoop orders incoming fuel cur prev best bp =
        some (scanList incoming l prev best bp) := by
  intro fuel
  induction fuel with
  | zero =>
    intro cur l prev best bp h
    cases cur with
    | none => simp [chainPairs] at h; subst h; simp [findLoop, scanList]
    | some c => simp [chainPairs] at h
  | succ fuel ih =>
    intro cur l prev best bp h
    cases cur with
    | none => simp [chainPairs] at h; subst h; simp [findLoop, scanList]
    | some c =>
      simp only [chainPairs] at h
      cases ho : orders[c]? with
      | none => rw [ho] at h; simp at h
      | some o =>
        rw [ho] at h
        rcases Option.map_eq_some'.mp h with ⟨l', hl', hEq⟩
        subst hEq
        simp only [findLoop, ho, scanList]
        by_cases hq : o.quantity ≤ 0
        · simp only [if_pos hq]
          exact ih _ _ _ _ _ hl'
        · simp only [if_neg hq]
          by_cases ht : (eligible incoming o &&
              (match best with
               | none => true
               | some b => betterThan incoming o b.2)) = true
          · simp only [if_pos ht]
            exact ih _ _ _ _ _ hl'
          · simp only [if_neg ht]
            exact ih _ _ _ _ _ hl'

theorem scanList_cons_skip (incoming : Order) (x : Nat × Order)
    (rest : List (Nat × Order)) (prev : Option Nat) (best : Option (Nat × Order))
    (bp : Option Nat) (h : x.2.quantity ≤ 0) :
    scanList incoming (x :: rest) prev best bp =
      scanList incoming rest prev best bp := by
  simp [scanList, h]

theorem scanList_cons_take_none (incoming : Order) (x : Nat × Order)
    (rest : List (Nat × Order)) (prev bp : Option Nat)
    (h : ¬ x.2.quantity ≤ 0) (he : eligible incoming x.2 = true) :
    scanList incoming (x :: rest) prev none bp =
      scanList incoming rest (some x.1) (some x) prev := by
  simp [scanList, h, he]

theorem scanList_cons_pass_none (incoming : Order) (x : Nat × Order)
    (rest : List (Nat × Order)) (prev bp : Option Nat)
    (h : ¬ x.2.quantity ≤ 0) (he : eligible incoming x.2 = false) :
    scanList incoming (x :: rest) prev none bp =
      scanList incoming rest (some x.1) none bp := by
  simp [scanList, h, he]

theorem scanList_cons_take_some (incoming : Order) (x : Nat × Order)
    (rest : List (Nat × Order)) (prev bp : Option Nat) (A : Nat × Order)
    (h : ¬ x.2.quantity ≤ 0)
    (ht : (eligible incoming x.2 && betterThan incoming x.2 A.2) = true) :
    scanList incoming (x :: rest) prev (some A) bp =
      scanList incoming rest (some x.1) (some x) prev := by
  simp only [scanList, if_neg h]
  rw [if_pos ht]

theorem scanList_cons_pass_some (incoming : Order) (x : Nat × Order)
    (rest : List (Nat × Order)) (prev bp : Option Nat) (A : Nat × Order)
    (h : ¬ x.2.quantity ≤ 0)
    (ht : ¬ (eligible incoming x.2 && betterThan incoming x.2 A.2) = true) :
    scanList incoming (x :: rest) prev (some A) bp =
      scanList incoming rest (some x.1) (some A) bp := by
  simp only [scanList, if_neg h]
  rw [if_neg ht]

/-- Running the scan with a current best candidate `A`: either `A` survives
and nothing scanned strictly beats it, or the result is a later node that
strictly beats `A` and every eligible node scanned before it, with the
returned predecessor being the last positive node walked before it. -/
theorem scanList_acc (incoming : Order) :
    ∀ (l : List (Nat × Order)) (prev : Option Nat) (A : Nat × Order) (AP : Option Nat),
      ∃ B BP, scanList incoming l prev (some A) AP = (some B, BP) ∧
        ((B = A ∧ BP = AP ∧
            ∀ x ∈ l, posElig incoming x →
              ¬ strictlyBetter incoming x.2.price A.2.price) ∨
         (∃ l1 l2, l = l1 ++ B :: l2 ∧ posElig incoming B ∧
            strictlyBetter incoming B.2.price A.2.price ∧
            (∀ x ∈ l1, posElig incoming x →
              strictlyBetter incoming B.2.price x.2.price) ∧
            (∀ x ∈ l2, posElig incoming x →
              ¬ strictlyBetter incoming x.2.price B.2.price) ∧
            BP = lastPosFrom prev l1)) := by
  intro l
  induction l with
  | nil =>
    intro prev A AP
    exact ⟨A, AP, rfl, Or.inl ⟨rfl, rfl, by simp⟩⟩
  | cons x rest ih =>
    intro prev A AP
    by_cases hq : x.2.quantity ≤ 0
    · rcases ih prev A AP with ⟨B, BP, hEq, hcase⟩
      refine ⟨B, BP, by rw [scanList_cons_skip _ _ _ _ _ _ hq]; exact hEq, ?_⟩
      rcases hcase with ⟨h1, h2, h3⟩ | ⟨l1, l2, hsplit, hpe, hsb, hall1, hall2, hbp⟩
      · refine Or.inl ⟨h1, h2, ?_⟩
        intro y hy hpe
        rcases List.mem_cons.mp hy with rfl | hy
        · exact absurd hpe.1 (by omega)
        · exact h3 y hy hpe
      · refine Or.inr ⟨x :: l1, l2, by simp [hsplit], hpe, hsb, ?_, hall2, ?_⟩
        · intro y hy hpe2
          rcases List.mem_cons.mp hy with rfl | hy
          · exact absurd hpe2.1 (by omega)
          · exact hall1 y hy hpe2
        · rw [hbp]
          simp only [lastPosFrom, if_neg (by omega : ¬ (0:Int) < x.2.quantity)]
    · by_cases ht : (eligible incoming x.2 && betterThan incoming x.2 A.2) = true
      · have ht2 := ht
        rw [Bool.and_eq_true] at ht2
        obtain ⟨helig, hbet⟩ := ht2
        rcases ih (some x.1) x prev with ⟨B, BP, hEq, hcase⟩
        refine ⟨B, BP, by rw [scanList_cons_take_some _ _ _ _ _ _ hq ht]; exact hEq, ?_⟩
        rcases hcase with ⟨rfl, rfl, h3⟩ | ⟨l1, l2, hsplit, hpe, hsbBx, hall1, hall2, hbp⟩
        · refine Or.inr ⟨[], rest, by simp, ⟨by omega, (eligible_iff _ _).mp helig⟩,
            (betterThan_iff _ _ _).mp hbet, by simp, h3, rfl⟩
        · refine Or.inr ⟨x :: l1, l2, by simp [hsplit],  hpe,
            strictlyBetter_trans hsbBx ((betterThan_iff _ _ _).mp hbet), ?_, hall2, ?_⟩
          · intro y hy hpe2
            rcases List.mem_cons.mp hy with rfl | hy
            · exact hsbBx
            · exact hall1 y hy hpe2
          · rw [hbp]
            simp only [lastPosFrom, if_pos (by omega : (0:Int) < x.2.quantity)]
      · rcases ih (some x.1) A AP with ⟨B, BP, hEq, hcase⟩
        refine ⟨B, BP, by rw [scanList_cons_pass_some _ _ _ _ _ _ hq ht]; exact hEq, ?_⟩
        have hnotsb : posElig incoming x →
            ¬ strictlyBetter incoming x.2.price A.2.price := by
          intro hpe hsb
          refine ht ?_
          rw [Bool.and_eq_true]
          exact ⟨(eligible_iff _ _).mpr hpe.2, (betterThan_iff _ _ _).mpr hsb⟩
        rcases hcase with ⟨rfl, rfl, h3⟩ | ⟨l1, l2, hsplit, hpe, hsb, hall1, hall2, hbp⟩
        · refine Or.inl ⟨rfl, rfl, ?_⟩
          intro y hy hpe2
          rcases List.mem_cons.mp hy with rfl | hy
          · exact hnotsb hpe2
          · exact h3 y hy hpe2
        · refine Or.inr ⟨x :: l1, l2, by simp [hsplit], hpe, hsb, ?_, hall2, ?_⟩
          · intro y hy hpe2
            rcases List.mem_cons.mp hy with rfl | hy
            · exact strictlyBetter_not_right _ hsb (hnotsb hpe2)
            · exact hall1 y hy hpe2
          · rw [hbp]
            simp only [lastPosFrom, if_pos (by omega : (0:Int) < x.2.quantity)]

/-- Running the scan with no current best: either no positive eligible node
exists and nothing is selected, or the selected node is eligible with
positive quantity, strictly beats every eligible node scanned before it,
is not strictly beaten by any node after it, and the returned predecessor
is the last positive node walked before it. -/
theorem scanList_start (incoming : Order) :
    ∀ (l : List (Nat × Order)) (prev AP : Option Nat),
      ((scanList incoming l prev none AP).1 = none ∧
        ∀ x ∈ l, ¬ posElig incoming x) ∨
      (∃ B BP l1 l2, scanList incoming l prev none AP = (some B, BP) ∧
        l = l1 ++ B :: l2 ∧ posElig incoming B ∧
        (∀ x ∈ l1, posElig incoming x →
          strictlyBetter incoming B.2.price x.2.price) ∧
        (∀ x ∈ l2, posElig incoming x →
          ¬ strictlyBetter incoming x.2.price B.2.price) ∧
        BP = lastPosFrom prev l1) := by
  intro l
  induction l with
  | nil =>
    intro prev AP
    exact Or.inl ⟨rfl, by simp⟩
  | cons x rest ih =>
    intro prev AP
    by_cases hq : x.2.quantity ≤ 0
    · rcases ih prev AP with ⟨h1, h2⟩ | ⟨B, BP, l1, l2, hEq, hsplit, hpe, hall1, hall2, hbp⟩
      · refine Or.inl ⟨?_, ?_⟩
        · rw [scanList_cons_skip _ _ _ _ _ _ hq]; exact h1
        · intro y hy hpe
          rcases List.mem_cons.mp hy with rfl | hy
          · exact absurd hpe.1 (by omega)
          · exact h2 y hy hpe
      · refine Or.inr ⟨B, BP, x :: l1, l2,
          by rw [scanList_cons_skip _ _ _ _ _ _ hq]; exact hEq,
          by simp [hsplit], hpe, ?_, hall2, ?_⟩
        · intro y hy hpe2
          rcases List.mem_cons.mp hy with rfl | hy
          · exact absurd hpe2.1 (by omega)
          · exact hall1 y hy hpe2
        · rw [hbp]
          simp only [lastPosFrom, if_neg (by omega : ¬ (0:Int) < x.2.quantity)]
    · cases helig : eligible incoming x.2 with
      | true =>
        rcases scanList_acc incoming rest (some x.1) x prev with ⟨B, BP, hEq, hcase⟩
        have hstep := scanList_cons_take_none incoming x rest prev AP hq helig
        rcases hcase with ⟨rfl, rfl, h3⟩ | ⟨l1, l2, hsplit, hpe, hsbBx, hall1, hall2, hbp⟩
        · refine Or.inr ⟨B, BP, [], rest, by rw [hstep]; exact hEq, by simp,
            ⟨by omega, (eligible_iff _ _).mp helig⟩, by simp, h3, rfl⟩
        · refine Or.inr ⟨B, BP, x :: l1, l2, by rw [hstep]; exact hEq,
            by simp [hsplit], hpe, ?_, hall2, ?_⟩
          · intro y hy hpe2
            rcases List.mem_cons.mp hy with rfl | hy
            · exact hsbBx
            · exact hall1 y hy hpe2
          · rw [hbp]
            simp only [lastPosFrom, if_pos (by omega : (0:Int) < x.2.quantity)]
      | false =>
        rcases ih (some x.1) AP with ⟨h1, h2⟩ |
          ⟨B, BP, l1, l2, hEq, hsplit, hpe, hall1, hall2, hbp⟩
        · refine Or.inl ⟨?_, ?_⟩
          · rw [scanList_cons_pass_none _ _ _ _ _ hq helig]; exact h1
          · intro y hy hpe
            rcases List.mem_cons.mp hy with rfl | hy
            · exact absurd ((eligible_iff _ _).mpr hpe.2) (by simp [helig])
            · exact h2 y hy hpe
        · refine Or.inr ⟨B, BP, x :: l1, l2,
            by rw [scanList_cons_pass_none _ _ _ _ _ hq helig]; exact hEq,
            by simp [hsplit], hpe, ?_, hall2, ?_⟩
          · intro y hy hpe2
            rcases List.mem_cons.mp hy with rfl | hy
            · exact absurd ((eligible_iff _ _).mpr hpe2.2) (by simp [helig])
            · exact hall1 y hy hpe2
          · rw [hbp]
            simp only [lastPosFrom, if_pos (by omega : (0:Int) < x.2.quantity)]

/-- The scan only ever stores candidates read from the heap during the
walk, with positive quantity and passing the eligibility test. -/
theorem findLoop_best_sound (orders : List Order) (incoming : Order) :
    ∀ (fuel : Nat) (cur prev : Option Nat) (best : Option (Nat × Order))
      (bp : Option Nat) (b : Nat × Order) (bp' : Option Nat),
      findLoop orders incoming fuel cur prev best bp = some (some b, bp') →
      best = some b ∨
        (orders[b.1]? = some b.2 ∧ 0 < b.2.quantity ∧ eligible incoming b.2 = true) := by
  intro fuel
  induction fuel with
  | zero =>
    intro cur prev best bp b bp' h
    cases cur with
    | none =>
      simp only [findLoop, Option.some.injEq, Prod.mk.injEq] at h
      exact Or.inl h.1
    | some c => simp [findLoop] at h
  | succ fuel ih =>
    intro cur prev best bp b bp' h
    cases cur with
    | none =>
      simp only [findLoop, Option.some.injEq, Prod.mk.injEq] at h
      exact Or.inl h.1
    | some c =>
      simp only [findLoop] at h
      cases ho : orders[c]? with
      | none => rw [ho] at h; simp at h
      | some o =>
        rw [ho] at h
        simp only at h
        by_cases hq : o.quantity ≤ 0
        · rw [if_pos hq] at h
          exact ih _ _ _ _ _ _ h
        · rw [if_neg hq] at h
          split at h
          · rename_i ht
            rcases ih _ _ _ _ _ _ h with hacc | hgood
            · injection hacc with hacc2
              subst hacc2
              rw [Bool.and_eq_true] at ht
              exact Or.inr ⟨ho, by show (0:Int) < o.quantity; omega, ht.1⟩
            · exact Or.inr hgood
          · exact ih _ _ _ _ _ _ h

/-- An eligible candidate has the opposite side of the incoming order, so
the two are distinct objects. -/
theorem eligible_ne_type (incoming cur : Order)
    (h : eligible incoming cur = true) : cur.type ≠ incoming.type := by
  rcases (eligible_iff _ _).mp h with ⟨_, ⟨h1, h2, _⟩ | ⟨h1, h2, _⟩⟩ <;>
    rw [h1, h2] <;> simp

/-- The explicit effect of the trade phase of `match_order` (lines 100-119)
on the book. -/
def tradeResult (book : OrderBook) (incomingId : Nat) (inO : Order)
    (bestId : Nat) (best : Order) (bestPrevId : Option Nat) (traded : Int) :
    OrderBook :=
  if best.quantity - traded = 0 then
    match bestPrevId with
    | none =>
      if book.head = some bestId then
        { orders := (book.orders.set incomingId
            { inO with quantity := inO.quantity - traded }).set bestId
            { best with quantity := best.quantity - traded },
          head := best.next }
      else
        { orders := (book.orders.set incomingId
            { inO with quantity := inO.quantity - traded }).set bestId
            { best with quantity := best.quantity - traded },
          head := book.head }
    | some p =>
      { orders := setNext ((book.orders.set incomingId
          { inO with quantity := inO.quantity - traded }).set bestId
          { best with quantity := best.quantity - traded }) p best.next,
        head := book.head }
  else
    { orders := (book.orders.set incomingId
        { inO with quantity := inO.quantity - traded }).set bestId
        { best with quantity := best.quantity - traded },
      head := book.head }

theorem match_order_no_best (book : OrderBook) (incomingId fuel : Nat)
    (inO : Order) (bp : Option Nat)
    (hin : book.orders[incomingId]? = some inO)
    (hscan : findLoop book.orders inO fuel book.head none none none =
      some (none, bp)) :
    match_order book incomingId fuel = some (book, false, none) := by
  simp only [match_order, hin, hscan]

theorem match_order_zero (book : OrderBook) (incomingId fuel : Nat)
    (inO : Order) (b : Nat × Order) (bp : Option Nat)
    (hin : book.orders[incomingId]? = some inO)
    (hscan : findLoop book.orders inO fuel book.head none none none =
      some (some b, bp))
    (hz : min inO.quantity b.2.quantity = 0) :
    match_order book incomingId fuel = some (book, false, none) := by
  obtain ⟨bestId, best⟩ := b
  simp only [match_order, hin, hscan]
  rw [if_pos hz]

theorem match_order_trade_eq (book : OrderBook) (incomingId fuel : Nat)
    (inO : Order) (b : Nat × Order) (bp : Option Nat)
    (hin : book.orders[incomingId]? = some inO)
    (hscan : findLoop book.orders inO fuel book.head none none none =
      some (some b, bp))
    (hnz : ¬ min inO.quantity b.2.quantity = 0)
    (hb : book.orders[b.1]? = some b.2)
    (hne : b.1 ≠ incomingId) :
    match_order book incomingId fuel =
      some (tradeResult book incomingId inO b.1 b.2 bp
              (min inO.quantity b.2.quantity),
            true,
            some ⟨b.1, min inO.quantity b.2.quantity, b.2.price⟩) := by
  obtain ⟨bestId, best⟩ := b
  simp only [match_order, hin, hscan]
  rw [if_neg hnz]
  have hlook :
      (book.orders.set incomingId
        { inO with quantity := inO.quantity - min inO.quantity best.quantity })[bestId]? =
        some best := by
    rw [List.getElem?_set_ne fun hx => hne hx.symm]
    exact hb
  rw [hlook]
  rfl

/-- An eligible best candidate is a different heap object than the
incoming order. -/
theorem best_ne_incoming (book : OrderBook) (incomingId : Nat) (inO : Order)
    (b : Nat × Order)
    (hin : book.orders[incomingId]? = some inO)
    (hb : book.orders[b.1]? = some b.2)
    (helig : eligible inO b.2 = true) : b.1 ≠ incomingId := by
  intro hEq
  rw [hEq, hin] at hb
  injection hb with hb2
  exact eligible_ne_type inO b.2 helig (by rw [hb2])

/-- A `false` return from `match_order` leaves the book untouched and logs
no trade. -/
theorem match_order_false_frame (book : OrderBook) (incomingId fuel : Nat)
    (book' : OrderBook) (tr : Option Trade)
    (h : match_order book incomingId fuel = some (book', false, tr)) :
    book' = book ∧ tr = none := by
  cases hin : book.orders[incomingId]? with
  | none => simp only [match_order, hin] at h; exact absurd h (by simp)
  | some inO =>
    cases hscan : findLoop book.orders inO fuel book.head none none none with
    | none => simp only [match_order, hin, hscan] at h; exact absurd h (by simp)
    | some res =>
      obtain ⟨bestO, bp⟩ := res
      cases bestO with
      | none =>
        rw [match_order_no_best book incomingId fuel inO bp hin hscan] at h
        simp only [Option.some.injEq, Prod.mk.injEq] at h
        exact ⟨h.1.symm, h.2.2.symm⟩
      | some b =>
        by_cases hz : min inO.quantity b.2.quantity = 0
        · rw [match_order_zero book incomingId fuel inO b bp hin hscan hz] at h
          simp only [Option.some.injEq, Prod.mk.injEq] at h
          exact ⟨h.1.symm, h.2.2.symm⟩
        · rcases findLoop_best_sound book.orders inO fuel book.head none none none
            b bp hscan with hacc | ⟨hb, _, helig⟩
          · exact absurd hacc (by simp)
          · rw [match_order_trade_eq book incomingId fuel inO b bp hin hscan hz hb
              (best_ne_incoming book incomingId inO b hin hb helig)] at h
            simp only [Option.some.injEq, Prod.mk.injEq] at h
            exact absurd h.2.1 (by simp)

theorem map_getElem?_set_pres {α : Type} (f : Order → α) (orders : List Order)
    (i : Nat) (a : Order)
    (hf : ∀ o, orders[i]? = some o → f a = f o) :
    ∀ j : Nat, ((orders.set i a)[j]?).map f = (orders[j]?).map f := by
  intro j
  by_cases hij : i = j
  · subst hij
    rw [List.getElem?_set_self']
    cases ho : orders[i]? with
    | none => simp
    | some o => simp [hf o ho]
  · rw [List.getElem?_set_ne hij]

theorem setNext_map_pres {α : Type} (f : Order → α)
    (hf : ∀ (o : Order) (nxt : Option Nat), f { o with next := nxt } = f o)
    (orders : List Order) (p : Nat) (nxt : Option Nat) :
    ∀ j : Nat, ((setNext orders p nxt)[j]?).map f = (orders[j]?).map f := by
  intro j
  unfold setNext
  cases hp : orders[p]? with
  | none => rfl
  | some o =>
    exact map_getElem?_set_pres f orders p { o with next := nxt }
      (fun o' ho' => by rw [hp] at ho'; injection ho' with h2; rw [← h2]; exact hf o nxt) j

theorem setNext_length (orders : List Order) (p : Nat) (nxt : Option Nat) :
    (setNext orders p nxt).length = orders.length := by
  unfold setNext
  cases orders[p]? with
  | none => rfl
  | some o => exact List.length_set ..

theorem setNext_lookup_ne (orders : List Order) (p : Nat) (nxt : Option Nat)
    (j : Nat) (hj : j ≠ p) : (setNext orders p nxt)[j]? = orders[j]? := by
  unfold setNext
  cases orders[p]? with
  | none => rfl
  | some o => exact List.getElem?_set_ne (fun hx => hj hx.symm)

theorem setNext_lookup_self (orders : List Order) (p : Nat) (nxt : Option Nat)
    (po : Order) (hp : orders[p]? = some po) :
    (setNext orders p nxt)[p]? = some { po with next := nxt } := by
  unfold setNext
  rw [hp, List.getElem?_set_self', hp]
  rfl

/-- The remaining quantity of an order as a natural number; the heap total
of these is the termination measure of the matching sweep. -/
def qtyNat (o : Order) : Nat := o.quantity.toNat

def totalQty (book : OrderBook) : Nat := (book.orders.map qtyNat).sum

theorem map_sum_set (f : Order → Nat) :
    ∀ (l : List Order) (j : Nat) (a o : Order), l[j]? = some o →
      ((l.set j a).map f).sum + f o = (l.map f).sum + f a := by
  intro l
  induction l with
  | nil => intro j a o h; simp at h
  | cons x rest ih =>
    intro j a o h
    cases j with
    | zero =>
      simp only [List.getElem?_cons_zero, Option.some.injEq] at h
      subst h
      simp only [List.set_cons_zero, List.map_cons, List.sum_cons]
      omega
    | succ j =>
      simp only [List.getElem?_cons_succ] at h
      have := ih j a o h
      simp only [List.set_cons_succ, List.map_cons, List.sum_cons]
      omega

/-- The first node of a non-empty chain is the node the start pointer
addresses. -/
theorem chainPairs_cons_head (orders : List Order) (c : Nat) (fuel : Nat)
    (l : List (Nat × Order))
    (h : chainPairs orders (some c) fuel = some l) :
    ∃ o rest, orders[c]? = some o ∧ l = (c, o) :: rest ∧
      chainPairs orders o.next (fuel - 1) = some rest := by
  cases fuel with
  | zero => simp [chainPairs] at h
  | succ fuel =>
    simp only [chainPairs] at h
    cases ho : orders[c]? with
    | none => rw [ho] at h; simp at h
    | some o =>
      rw [ho] at h
      rcases Option.map_eq_some'.mp h with ⟨l', hl', hEq⟩
      subst hEq
      exact ⟨o, l', rfl, rfl, by simpa using hl'⟩

/-- Where the scan's `prev` register ends up: either nothing positive was
walked and it keeps its initial value, or it is the last positive node. -/
theorem lastPosFrom_spec :
    ∀ (l : List (Nat × Order)) (prev : Option Nat),
      (lastPosFrom prev l = prev ∧ ∀ x ∈ l, x.2.quantity ≤ 0) ∨
      (∃ l1a x lmid, l = l1a ++ x :: lmid ∧ 0 < x.2.quantity ∧
        (∀ y ∈ lmid, y.2.quantity ≤ 0) ∧ lastPosFrom prev l = some x.1) := by
  intro l
  induction l with
  | nil => intro prev; exact Or.inl ⟨rfl, by simp⟩
  | cons x rest ih =>
    intro prev
    by_cases hq : 0 < x.2.quantity
    · rcases ih (some x.1) with ⟨hEq, hall⟩ | ⟨l1a, y, lmid, hsplit, hy, hall, hEq⟩
      · refine Or.inr ⟨[], x, rest, by simp, hq, hall, ?_⟩
        simp only [lastPosFrom, if_pos hq]
        exact hEq
      · refine Or.inr ⟨x :: l1a, y, lmid, by simp [hsplit], hy, hall, ?_⟩
        simp only [lastPosFrom, if_pos hq]
        exact hEq
    · rcases ih prev with ⟨hEq, hall⟩ | ⟨l1a, y, lmid, hsplit, hy, hall, hEq⟩
      · refine Or.inl ⟨?_, ?_⟩
        · simp only [lastPosFrom, if_neg hq]; exact hEq
        · intro z hz
          rcases List.mem_cons.mp hz with rfl | hz
          · omega
          · exact hall z hz
      · refine Or.inr ⟨x :: l1a, y, lmid, by simp [hsplit], hy, hall, ?_⟩
        simp only [lastPosFrom, if_neg hq]
        exact hEq

/-- When the node indices are distinct, a chain splits at a given index in
exactly one way. -/
theorem nodup_split_unique :
    ∀ (l1 L1 : List (Nat × Order)) (b : Nat) (bo bo' : Order)
      (l2 L2 : List (Nat × Order)),
      l1 ++ (b, bo) :: l2 = L1 ++ (b, bo') :: L2 →
      ((l1 ++ (b, bo) :: l2).map Prod.fst).Nodup →
      l1 = L1 ∧ bo = bo' ∧ l2 = L2 := by
  intro l1
  induction l1 with
  | nil =>
    intro L1 b bo bo' l2 L2 hEq hnd
    cases L1 with
    | nil =>
      simp only [List.nil_append] at hEq
      injection hEq with h1 h2
      injection h1 with h11 h12
      exact ⟨rfl, h12, h2⟩
    | cons z L1' =>
      exfalso
      simp only [List.nil_append, List.cons_append] at hEq
      injection hEq with h1 h2
      simp only [List.nil_append, List.map_cons, List.nodup_cons] at hnd
      exact hnd.1 (by rw [h2]; simp)
  | cons z l1' ih =>
    intro L1 b bo bo' l2 L2 hEq hnd
    cases L1 with
    | nil =>
      exfalso
      simp only [List.nil_append, List.cons_append] at hEq
      injection hEq with h1 h2
      subst h1
      simp only [List.cons_append, List.map_cons, List.nodup_cons] at hnd
      exact hnd.1 (by simp)
    | cons w L1' =>
      simp only [List.cons_append] at hEq
      injection hEq with h1 h2
      subst h1
      simp only [List.cons_append, List.map_cons, List.nodup_cons] at hnd
      rcases ih L1' b bo bo' l2 L2 h2 hnd.2 with ⟨ha, hb, hc⟩
      exact ⟨by rw [ha], hb, hc⟩

/-- Rebuilding a chain after an unlink: walk the unchanged part `l1`, then
at `p` jump straight to the continuation chain `m2`. -/
theorem chainPairs_unlink (orders orders' : List Order) (p : Nat) (po' : Order) :
    ∀ (l1 : List (Nat × Order)) (fuel : Nat) (cur : Option Nat)
      (po : Order) (rest m2 : List (Nat × Order)),
      chainPairs orders cur fuel = some (l1 ++ (p, po) :: rest) →
      p ∉ l1.map Prod.fst →
      (∀ x ∈ l1, ∃ o', orders'[x.1]? = some o' ∧ o'.next = x.2.next) →
      orders'[p]? = some po' →
      chainPairs orders' po'.next (fuel - l1.length - 1) = some m2 →
      ∃ l', chainPairs orders' cur fuel = some l' ∧
        l'.map Prod.fst = l1.map Prod.fst ++ p :: m2.map Prod.fst := by
  intro l1
  induction l1 with
  | nil =>
    intro fuel cur po rest m2 hchain _ _ hp hcont
    rcases cur with _ | c
    · simp [chainPairs] at hchain
    · rcases chainPairs_cons_head orders c fuel _ hchain with ⟨o, rest', ho, hEq, _⟩
      simp only [List.nil_append] at hEq
      injection hEq with h1 h2
      injection h1 with h11 h12
      subst h11
      cases fuel with
      | zero => simp [chainPairs] at hchain
      | succ fuel =>
        refine ⟨(p, po') :: m2, ?_, by simp⟩
        simp only [chainPairs, hp]
        simp only [List.length_nil, Nat.sub_zero, Nat.succ_sub_one] at hcont
        rw [hcont]
        rfl
  | cons z l1' ih =>
    intro fuel cur po rest m2 hchain hpnot hagree hp hcont
    rcases cur with _ | c
    · simp [chainPairs] at hchain
    · rcases chainPairs_cons_head orders c fuel _ hchain with ⟨o, rest', ho, hEq, hdrop⟩
      simp only [List.cons_append] at hEq
      injection hEq with h1 h2
      subst h1
      subst h2
      cases fuel with
      | zero => simp [chainPairs] at hchain
      | succ fuel =>
        rcases hagree (c, o) (List.mem_cons_self _ _) with ⟨o'', ho'', hnx⟩
        have hpnot' : p ∉ l1'.map Prod.fst := by
          intro hx; exact hpnot (by simp [hx])
        have h3 : fuel + 1 - ((c, o) :: l1').length - 1 = fuel - l1'.length - 1 := by
          simp only [List.length_cons]
          omega
        rw [h3] at hcont
        rcases ih fuel o.next po rest m2 (by simpa using hdrop) hpnot'
          (fun x hx => hagree x (List.mem_cons_of_mem _ hx)) hp hcont with ⟨l'', hl'', hmap⟩
        refine ⟨(c, o'') :: l'', ?_, by simp [hmap]⟩
        simp only [chainPairs, ho'', hnx, hl'']
        rfl

/-- Inverting a successful trade: recover the scan result and express the
returned book through `tradeResult`. -/
theorem match_order_true_elim (book : OrderBook) (incomingId fuel : Nat)
    (book' : OrderBook) (tr : Trade)
    (h : match_order book incomingId fuel = some (book', true, some tr)) :
    ∃ inO b bp,
      book.orders[incomingId]? = some inO ∧
      findLoop book.orders inO fuel book.head none none none = some (some b, bp) ∧
      book.orders[b.1]? = some b.2 ∧ 0 < b.2.quantity ∧
      eligible inO b.2 = true ∧ b.1 ≠ incomingId ∧
      min inO.quantity b.2.quantity ≠ 0 ∧
      tr = ⟨b.1, min inO.quantity b.2.quantity, b.2.price⟩ ∧
      book' = tradeResult book incomingId inO b.1 b.2 bp
        (min inO.quantity b.2.quantity) := by
  cases hin : book.orders[incomingId]? with
  | none => simp only [match_order, hin] at h; exact absurd h (by simp)
  | some inO =>
    cases hscan : findLoop book.orders inO fuel book.head none none none with
    | none => simp only [match_order, hin, hscan] at h; exact absurd h (by simp)
    | some res =>
      obtain ⟨bestO, bp⟩ := res
      cases bestO with
      | none =>
        rw [match_order_no_best book incomingId fuel inO bp hin hscan] at h
        simp only [Option.some.injEq, Prod.mk.injEq] at h
        exact absurd h.2.1 (by simp)
      | some b =>
        by_cases hz : min inO.quantity b.2.quantity = 0
        · rw [match_order_zero book incomingId fuel inO b bp hin hscan hz] at h
          simp only [Option.some.injEq, Prod.mk.injEq] at h
          exact absurd h.2.1 (by simp)
        · rcases findLoop_best_sound book.orders inO fuel book.head none none none
            b bp hscan with hacc | ⟨hb, hpos, helig⟩
          · exact absurd hacc (by simp)
          · have hne := best_ne_incoming book incomingId inO b hin hb helig
            rw [match_order_trade_eq book incomingId fuel inO b bp hin hscan hz hb hne] at h
            simp only [Option.some.injEq, Prod.mk.injEq] at h
            exact ⟨inO, b, bp, rfl, hscan, hb, hpos, helig, hne, hz,
              h.2.2.symm, h.1.symm⟩

theorem tradeResult_eq_nofill (book : OrderBook) (incomingId : Nat) (inO : Order)
    (bestId : Nat) (best : Order) (bp : Option Nat) (traded : Int)
    (h : ¬ best.quantity - traded = 0) :
    tradeResult book incomingId inO bestId best bp traded =
      { orders := (book.orders.set incomingId
          { inO with quantity := inO.quantity - traded }).set bestId
          { best with quantity := best.quantity - traded },
        head := book.head } := by
  unfold tradeResult
  rw [if_neg h]

theorem tradeResult_eq_fill_prev (book : OrderBook) (incomingId : Nat) (inO : Order)
    (bestId : Nat) (best : Order) (p : Nat) (traded : Int)
    (h : best.quantity - traded = 0) :
    tradeResult book incomingId inO bestId best (some p) traded =
      { orders := setNext ((book.orders.set incomingId
          { inO with quantity := inO.quantity - traded }).set bestId
          { best with quantity := best.quantity - traded }) p best.next,
        head := book.head } := by
  unfold tradeResult
  rw [if_pos h]

theorem tradeResult_eq_fill_head_hit (book : OrderBook) (incomingId : Nat) (inO : Order)
    (bestId : Nat) (best : Order) (traded : Int)
    (h : best.quantity - traded = 0) (hh : book.head = some bestId) :
    tradeResult book incomingId inO bestId best none traded =
      { orders := (book.orders.set incomingId
          { inO with quantity := inO.quantity - traded }).set bestId
          { best with quantity := best.quantity - traded },
        head := best.next } := by
  unfold tradeResult
  rw [if_pos h]
  exact if_pos hh

theorem tradeResult_eq_fill_head_miss (book : OrderBook) (incomingId : Nat) (inO : Order)
    (bestId : Nat) (best : Order) (traded : Int)
    (h : best.quantity - traded = 0) (hh : ¬ book.head = some bestId) :
    tradeResult book incomingId inO bestId best none traded =
      { orders := (book.orders.set incomingId
          { inO with quantity := inO.quantity - traded }).set bestId
          { best with quantity := best.quantity - traded },
        head := book.head } := by
  unfold tradeResult
  rw [if_pos h]
  exact if_neg hh

theorem tradeResult_length (book : OrderBook) (incomingId : Nat) (inO : Order)
    (bestId : Nat) (best : Order) (bp : Option Nat) (traded : Int) :
    (tradeResult book incomingId inO bestId best bp traded).orders.length =
      book.orders.length := by
  unfold tradeResult
  repeat split
  all_goals simp [setNext_length]

theorem nodup_mid_facts (A B C : List Nat) (p q : Nat)
    (h : (A ++ p :: (B ++ q :: C)).Nodup) :
    p ∉ A ∧ p ∉ B ∧ p ∉ C ∧ p ≠ q ∧ q ∉ A ∧ q ∉ B ∧ q ∉ C := by
  simp only [List.nodup_append, List.nodup_cons, List.mem_append, List.mem_cons,
    List.disjoint_left] at h
  obtain ⟨-, ⟨hpBC, -, ⟨hqC, -⟩, hBq⟩, hA⟩ := h
  push_neg at hpBC
  exact ⟨fun hp => hA hp (Or.inl rfl), hpBC.1, hpBC.2.2, hpBC.2.1,
    fun hq => hA hq (Or.inr (Or.inr (Or.inl rfl))),
    fun hq => hBq hq (Or.inl rfl), hqC⟩

/-- Effect of a successful trade on the book's chain: the heap size is
unchanged, the new chain's indices are a sublist of the old ones, every
positive node other than the candidate stays reachable, and a fully
consumed candidate is unlinked whenever it is the head or some positive
node precedes it. -/
theorem match_order_chain (book : OrderBook) (incomingId : Nat) (fuel : Nat)
    (l : List (Nat × Order))
    (hchain : chainPairs book.orders book.head fuel = some l)
    (hnodup : (l.map Prod.fst).Nodup)
    (book' : OrderBook) (tr : Trade)
    (h : match_order book incomingId fuel = some (book', true, some tr)) :
    book'.orders.length = book.orders.length ∧
    ∃ l', chainPairs book'.orders book'.head fuel = some l' ∧
      (l'.map Prod.fst).Sublist (l.map Prod.fst) ∧
      (∀ x ∈ l, 0 < x.2.quantity → x.1 ≠ tr.candidate → x.1 ∈ l'.map Prod.fst) ∧
      (∀ L1 bo L2, l = L1 ++ (tr.candidate, bo) :: L2 →
        bo.quantity - tr.qty = 0 →
        (L1 = [] ∨ ∃ x ∈ L1, 0 < x.2.quantity) →
        tr.candidate ∉ l'.map Prod.fst) := by
  rcases match_order_true_elim book incomingId fuel book' tr h with
    ⟨inO, b, bp, hin, hscan, hb, hpos, helig, hne, hnz, htr, hbook'⟩
  subst hbook'
  have htrc : tr.candidate = b.1 := by rw [htr]
  have htrq : tr.qty = min inO.quantity b.2.quantity := by rw [htr]
  rw [htrc, htrq]
  refine ⟨tradeResult_length book incomingId inO b.1 b.2 bp _, ?_⟩
  have hsim := findLoop_eq_scanList book.orders inO fuel book.head l none none none hchain
  rw [hscan] at hsim
  injection hsim with hsim
  rcases scanList_start inO l none none with ⟨hnone, _⟩ |
    ⟨B, BP, L1, L2, hplEq, hsplit, hpe, hall1, hall2, hbp⟩
  · rw [← hsim] at hnone; simp at hnone
  rw [← hsim] at hplEq
  injection hplEq with hB hBP
  injection hB with hB
  subst hB
  subst hBP
  -- shared frame facts about the quantity updates
  have horders1b : (book.orders.set incomingId
      { inO with quantity := inO.quantity - min inO.quantity b.2.quantity })[b.1]? =
      some b.2 := by
    rw [List.getElem?_set_ne (fun hx => hne hx.symm)]
    exact hb
  have hnext1 : ∀ j : Nat,
      ((book.orders.set incomingId
        { inO with quantity := inO.quantity - min inO.quantity b.2.quantity })[j]?).map
          Order.next = (book.orders[j]?).map Order.next :=
    map_getElem?_set_pres Order.next book.orders incomingId _
      (fun o ho => by rw [hin] at ho; injection ho with ho2; rw [← ho2])
  have hnext2 : ∀ j : Nat,
      (((book.orders.set incomingId
        { inO with quantity := inO.quantity - min inO.quantity b.2.quantity }).set b.1
        { b.2 with quantity := b.2.quantity - min inO.quantity b.2.quantity })[j]?).map
          Order.next = (book.orders[j]?).map Order.next := by
    intro j
    refine Eq.trans ?_ (hnext1 j)
    exact map_getElem?_set_pres Order.next _ b.1 _
      (fun o ho => by rw [horders1b] at ho; injection ho with ho2; rw [← ho2]) j
  have hagree2 : ∀ x ∈ l, ∃ o',
      ((book.orders.set incomingId
        { inO with quantity := inO.quantity - min inO.quantity b.2.quantity }).set b.1
        { b.2 with quantity := b.2.quantity - min inO.quantity b.2.quantity })[x.1]? =
        some o' ∧ o'.next = x.2.next := by
    intro x hx
    have hlk := chainPairs_mem_lookup book.orders fuel book.head l hchain x hx
    have h2 := hnext2 x.1
    rw [hlk] at h2
    exact Option.map_eq_some'.mp h2
  by_cases hfill : b.2.quantity - min inO.quantity b.2.quantity = 0
  · -- candidate fully consumed: unlink attempt
    rcases bp with _ | p
    · -- no predecessor was recorded
      rcases lastPosFrom_spec L1 none with ⟨_, hallnp⟩ | ⟨l1a, px, lmid, hL1, hpxpos, hlm, hlast⟩
      · -- everything before the candidate is non-positive
        by_cases hh : book.head = some b.1
        · -- head CAS succeeds: candidate unlinked
          rw [tradeResult_eq_fill_head_hit book incomingId inO b.1 b.2 _ hfill hh]
          rw [hh] at hchain
          rcases chainPairs_cons_head book.orders b.1 fuel l hchain with
            ⟨o₀, rest₀, ho₀, hl₀, hdrop⟩
          have hob : o₀ = b.2 := by
            have h2 := ho₀.symm.trans hb
            injection h2
          rw [hob] at hl₀ hdrop
          have huniq := nodup_split_unique [] L1 b.1 b.2 b.2 rest₀ L2
            (by simpa using hl₀.symm.trans hsplit)
            (by rw [List.nil_append, ← hl₀]; exact hnodup)
          rcases huniq with ⟨hL1e, _, hL2e⟩
          have hag' : ∀ x ∈ rest₀, ∃ o',
              ((book.orders.set incomingId
                { inO with quantity := inO.quantity - min inO.quantity b.2.quantity }).set b.1
                { b.2 with quantity := b.2.quantity - min inO.quantity b.2.quantity })[x.1]? =
                some o' ∧ o'.next = x.2.next :=
            fun x hx => hagree2 x (by rw [hl₀]; exact List.mem_cons_of_mem _ hx)
          rcases chainPairs_transport book.orders _ (fuel - 1) b.2.next rest₀ hdrop hag'
            with ⟨m2, hm2, hm2map⟩
          have hm2' := chainPairs_mono _ (fuel - 1) fuel b.2.next m2 hm2 (by omega)
          have hheadnotin : b.1 ∉ rest₀.map Prod.fst := by
            have := hnodup
            rw [hl₀] at this
            simp only [List.map_cons, List.nodup_cons] at this
            exact this.1
          refine ⟨m2, hm2', ?_, ?_, ?_⟩
          · rw [hm2map, hl₀]
            simp only [List.map_cons]
            exact List.Sublist.cons _ (List.Sublist.refl _)
          · intro x hx hxpos hxne
            rw [hl₀] at hx
            rcases List.mem_cons.mp hx with rfl | hx
            · exact absurd rfl hxne
            · rw [hm2map]
              exact List.mem_map.mpr ⟨x, hx, rfl⟩
          · intro L1' bo L2' _ _ _
            rw [hm2map]
            exact hheadnotin
        · -- head CAS fails: candidate stays linked
          rw [tradeResult_eq_fill_head_miss book incomingId inO b.1 b.2 _ hfill hh]
          rcases chainPairs_transport book.orders _ fuel book.head l hchain hagree2 with
            ⟨l', hl', hmap⟩
          refine ⟨l', hl', by rw [hmap], ?_, ?_⟩
          · intro x hx _ _
            rw [hmap]
            exact List.mem_map.mpr ⟨x, hx, rfl⟩
          · intro L1' bo L2' hdec hq0 hcond
            exfalso
            rcases nodup_split_unique L1' L1 b.1 bo b.2 L2' L2
              (hdec.symm.trans hsplit) (by rw [← hdec]; exact hnodup) with ⟨hL1eq, _, _⟩
            subst hL1eq
            rcases hcond with hL1nil | ⟨x, hx, hxpos⟩
            · rw [hL1nil] at hsplit
              simp only [List.nil_append] at hsplit
              cases hhd : book.head with
              | none =>
                rw [hhd] at hchain
                simp [chainPairs] at hchain
                rw [hchain] at hsplit
                exact absurd hsplit (by simp)
              | some c =>
                rw [hhd] at hchain
                rcases chainPairs_cons_head book.orders c fuel l hchain with
                  ⟨o₀, rest₀, _, hl₀, _⟩
                rw [hl₀] at hsplit
                injection hsplit with h1 _
                exact hh (by rw [hhd]; exact congrArg (fun y => some y.1) h1)
            · exact absurd hxpos (by have := hallnp x hx; omega)
      · -- impossible: a positive node precedes the candidate but none was recorded
        rw [hlast] at hbp
        exact absurd hbp (by simp)
    · -- a predecessor was recorded: unlink through it
      rcases lastPosFrom_spec L1 none with ⟨hEq0, _⟩ | ⟨l1a, px, lmid, hL1, hpxpos, hlm, hlast⟩
      · rw [hEq0] at hbp; exact absurd hbp (by simp)
      rw [hlast] at hbp
      injection hbp with hp
      subst hp
      rw [tradeResult_eq_fill_prev book incomingId inO b.1 b.2 px.1 _ hfill]
      have hl : l = l1a ++ px :: (lmid ++ b :: L2) := by
        rw [hsplit, hL1]
        simp
      have hnodupF : (l1a.map Prod.fst ++ px.1 ::
          (lmid.map Prod.fst ++ b.1 :: L2.map Prod.fst)).Nodup := by
        have := hnodup
        rw [hl] at this
        simpa using this
      rcases nodup_mid_facts _ _ _ _ _ hnodupF with
        ⟨hpA, hpB, hpC, hpq, hqA, hqB, hqC⟩
      -- the entry of the predecessor in the updated heap
      have hpxlk := chainPairs_mem_lookup book.orders fuel book.head l hchain px
        (by rw [hl]; simp)
      have hpo2 : ∃ po2,
          ((book.orders.set incomingId
            { inO with quantity := inO.quantity - min inO.quantity b.2.quantity }).set b.1
            { b.2 with quantity := b.2.quantity - min inO.quantity b.2.quantity })[px.1]? =
            some po2 ∧ po2.next = px.2.next := by
        have h2 := hnext2 px.1
        rw [hpxlk] at h2
        exact Option.map_eq_some'.mp h2
      rcases hpo2 with ⟨po2, hpo2lk, _⟩
      -- continuation of the chain after the candidate
      have hchain2 : chainPairs book.orders book.head fuel =
          some ((l1a ++ px :: lmid) ++ b :: L2) := by
        rw [hchain, hl]
        simp
      have hdropb := chainPairs_drop book.orders (l1a ++ px :: lmid) fuel book.head
        b L2 hchain2
      -- transport the continuation into the post-trade heap
      have hagL2 : ∀ x ∈ L2, ∃ o',
          (setNext ((book.orders.set incomingId
            { inO with quantity := inO.quantity - min inO.quantity b.2.quantity }).set b.1
            { b.2 with quantity := b.2.quantity - min inO.quantity b.2.quantity })
            px.1 b.2.next)[x.1]? = some o' ∧ o'.next = x.2.next := by
        intro x hx
        have hxne : x.1 ≠ px.1 := by
          intro hEq
          exact hpC (by rw [← hEq]; exact List.mem_map.mpr ⟨x, hx, rfl⟩)
        rw [setNext_lookup_ne _ _ _ _ hxne]
        exact hagree2 x (by rw [hl]; simp [hx])
      rcases chainPairs_transport book.orders _ _ b.2.next L2 hdropb hagL2 with
        ⟨m2, hm2, hm2map⟩
      have hm2' := chainPairs_mono _ _ (fuel - l1a.length - 1) b.2.next m2 hm2
        (by simp only [List.length_append, List.length_cons]; omega)
      -- agreements along the prefix
      have hagl1a : ∀ x ∈ l1a, ∃ o',
          (setNext ((book.orders.set incomingId
            { inO with quantity := inO.quantity - min inO.quantity b.2.quantity }).set b.1
            { b.2 with quantity := b.2.quantity - min inO.quantity b.2.quantity })
            px.1 b.2.next)[x.1]? = some o' ∧ o'.next = x.2.next := by
        intro x hx
        have hxne : x.1 ≠ px.1 := by
          intro hEq
          exact hpA (by rw [← hEq]; exact List.mem_map.mpr ⟨x, hx, rfl⟩)
        rw [setNext_lookup_ne _ _ _ _ hxne]
        exact hagree2 x (by rw [hl]; simp [hx])
      have hpx' : (setNext ((book.orders.set incomingId
          { inO with quantity := inO.quantity - min inO.quantity b.2.quantity }).set b.1
          { b.2 with quantity := b.2.quantity - min inO.quantity b.2.quantity })
          px.1 b.2.next)[px.1]? = some { po2 with next := b.2.next } :=
        setNext_lookup_self _ _ _ _ hpo2lk
      have hchain3 : chainPairs book.orders book.head fuel =
          some (l1a ++ (px.1, px.2) :: (lmid ++ b :: L2)) := by
        rw [hchain, hl]
      rcases chainPairs_unlink book.orders _ px.1 { po2 with next := b.2.next }
        l1a fuel book.head px.2 (lmid ++ b :: L2) m2 hchain3
        (fun hx => hpA hx) hagl1a hpx' hm2' with ⟨l', hl', hlmap⟩
      refine ⟨l', hl', ?_, ?_, ?_⟩
      · rw [hlmap, hm2map, hl]
        simp only [List.map_append, List.map_cons]
        refine List.Sublist.append_left ?_ _
        refine List.cons_sublist_cons.mpr ?_
        exact List.Sublist.trans (List.Sublist.cons b.1 (List.Sublist.refl _))
          (List.sublist_append_right (lmid.map Prod.fst) (b.1 :: L2.map Prod.fst))
      · intro x hx hxpos hxne
        rw [hlmap, hm2map]
        rw [hl] at hx
        rcases List.mem_append.mp hx with hx | hx
        · exact List.mem_append.mpr (Or.inl (List.mem_map.mpr ⟨x, hx, rfl⟩))
        rcases List.mem_cons.mp hx with rfl | hx
        · exact List.mem_append.mpr (Or.inr (List.mem_cons_self _ _))
        rcases List.mem_append.mp hx with hx | hx
        · exact absurd hxpos (by have := hlm x hx; omega)
        rcases List.mem_cons.mp hx with rfl | hx
        · exact absurd rfl hxne
        · exact List.mem_append.mpr (Or.inr (List.mem_cons_of_mem _
            (List.mem_map.mpr ⟨x, hx, rfl⟩)))
      · intro L1' bo L2' _ _ _
        rw [hlmap, hm2map]
        intro hmem
        rcases List.mem_append.mp hmem with hmem | hmem
        · exact hqA hmem
        rcases List.mem_cons.mp hmem with hEq | hmem
        · exact hpq hEq.symm
        · exact hqC hmem
  · -- candidate not fully consumed: plain quantity update, chain untouched
    rw [tradeResult_eq_nofill book incomingId inO b.1 b.2 bp _ hfill]
    rcases chainPairs_transport book.orders _ fuel book.head l hchain hagree2 with
      ⟨l', hl', hmap⟩
    refine ⟨l', hl', by rw [hmap], ?_, ?_⟩
    · intro x hx _ _
      rw [hmap]
      exact List.mem_map.mpr ⟨x, hx, rfl⟩
    · intro L1' bo L2' hdec hq0 _
      exfalso
      have hmem : (b.1, bo) ∈ l := by rw [hdec]; simp
      have hlk := chainPairs_mem_lookup book.orders fuel book.head l hchain _ hmem
      have hbo : bo = b.2 := by
        have := hlk.symm.trans hb
        injection this
      rw [hbo] at hq0
      exact hfill hq0

/-- Any field untouched by `setNext` reads the same through `tradeResult`
as through the two quantity updates alone. -/
theorem tradeResult_map_field {α : Type} (f : Order → α)
    (hf : ∀ (o : Order) (nxt : Option Nat), f { o with next := nxt } = f o)
    (book : OrderBook) (incomingId : Nat) (inO : Order)
    (bestId : Nat) (best : Order) (bp : Option Nat) (traded : Int) :
    ∀ j : Nat,
      ((tradeResult book incomingId inO bestId best bp traded).orders[j]?).map f =
        (((book.orders.set incomingId
            { inO with quantity := inO.quantity - traded }).set bestId
            { best with quantity := best.quantity - traded })[j]?).map f := by
  intro j
  unfold tradeResult
  repeat split
  all_goals first
    | rfl
    | exact setNext_map_pres f hf _ _ _ j

/-- Full frame description of a successful `match_order` trade: the traded
quantity, the two quantity decrements, and everything that is unchanged. -/
theorem match_order_frame (book : OrderBook) (incomingId fuel : Nat)
    (book' : OrderBook) (tr : Trade)
    (h : match_order book incomingId fuel = some (book', true, some tr)) :
    ∃ inO bo, book.orders[incomingId]? = some inO ∧
      book.orders[tr.candidate]? = some bo ∧ 0 < bo.quantity ∧
      eligible inO bo = true ∧ tr.candidate ≠ incomingId ∧
      tr.qty = min inO.quantity bo.quantity ∧ tr.qty ≠ 0 ∧ tr.price = bo.price ∧
      (book'.orders[incomingId]?).map Order.quantity = some (inO.quantity - tr.qty) ∧
      (book'.orders[tr.candidate]?).map Order.quantity =
        some (bo.quantity - tr.qty) ∧
      (∀ j : Nat, j ≠ incomingId → j ≠ tr.candidate →
        (book'.orders[j]?).map Order.quantity =
          (book.orders[j]?).map Order.quantity) ∧
      (∀ j : Nat,
        (book'.orders[j]?).map Order.type = (book.orders[j]?).map Order.type ∧
        (book'.orders[j]?).map Order.ticker = (book.orders[j]?).map Order.ticker ∧
        (book'.orders[j]?).map Order.price = (book.orders[j]?).map Order.price) := by
  rcases match_order_true_elim book incomingId fuel book' tr h with
    ⟨inO, b, bp, hin, hscan, hb, hpos, helig, hne, hnz, htr, hbook'⟩
  subst hbook'
  have htrc : tr.candidate = b.1 := by rw [htr]
  have htrq : tr.qty = min inO.quantity b.2.quantity := by rw [htr]
  have htrp : tr.price = b.2.price := by rw [htr]
  have horders1in : (book.orders.set incomingId
      { inO with quantity := inO.quantity - min inO.quantity b.2.quantity })[incomingId]? =
      some { inO with quantity := inO.quantity - min inO.quantity b.2.quantity } := by
    rw [List.getElem?_set_self', hin]
    rfl
  have horders1b : (book.orders.set incomingId
      { inO with quantity := inO.quantity - min inO.quantity b.2.quantity })[b.1]? =
      some b.2 := by
    rw [List.getElem?_set_ne (fun hx => hne hx.symm)]
    exact hb
  have horders2b : ((book.orders.set incomingId
      { inO with quantity := inO.quantity - min inO.quantity b.2.quantity }).set b.1
      { b.2 with quantity := b.2.quantity - min inO.quantity b.2.quantity })[b.1]? =
      some { b.2 with quantity := b.2.quantity - min inO.quantity b.2.quantity } := by
    rw [List.getElem?_set_self', horders1b]
    rfl
  have horders2in : ((book.orders.set incomingId
      { inO with quantity := inO.quantity - min inO.quantity b.2.quantity }).set b.1
      { b.2 with quantity := b.2.quantity - min inO.quantity b.2.quantity })[incomingId]? =
      some { inO with quantity := inO.quantity - min inO.quantity b.2.quantity } := by
    rw [List.getElem?_set_ne hne]
    exact horders1in
  refine ⟨inO, b.2, hin, by rw [htrc]; exact hb, hpos, helig, by rw [htrc]; exact hne,
    htrq, by rw [htrq]; exact hnz, htrp, ?_, ?_, ?_, ?_⟩
  · rw [htrq, tradeResult_map_field Order.quantity (fun _ _ => rfl), horders2in]
    rfl
  · rw [htrc, htrq, tradeResult_map_field Order.quantity (fun _ _ => rfl), horders2b]
    rfl
  · intro j hj1 hj2
    rw [htrc] at hj2
    rw [tradeResult_map_field Order.quantity (fun _ _ => rfl),
      List.getElem?_set_ne (fun hx => hj2 hx.symm),
      List.getElem?_set_ne (fun hx => hj1 hx.symm)]
  · intro j
    refine ⟨?_, ?_, ?_⟩
    · rw [tradeResult_map_field Order.type (fun _ _ => rfl)]
      rw [map_getElem?_set_pres Order.type _ b.1 _
        (fun o ho => by rw [horders1b] at ho; injection ho with ho2; rw [← ho2]) j]
      exact map_getElem?_set_pres Order.type book.orders incomingId _
        (fun o ho => by rw [hin] at ho; injection ho with ho2; rw [← ho2]) j
    · rw [tradeResult_map_field Order.ticker (fun _ _ => rfl)]
      rw [map_getElem?_set_pres Order.ticker _ b.1 _
        (fun o ho => by rw [horders1b] at ho; injection ho with ho2; rw [← ho2]) j]
      exact map_getElem?_set_pres Order.ticker book.orders incomingId _
        (fun o ho => by rw [hin] at ho; injection ho with ho2; rw [← ho2]) j
    · rw [tradeResult_map_field Order.price (fun _ _ => rfl)]
      rw [map_getElem?_set_pres Order.price _ b.1 _
        (fun o ho => by rw [horders1b] at ho; injection ho with ho2; rw [← ho2]) j]
      exact map_getElem?_set_pres Order.price book.orders incomingId _
        (fun o ho => by rw [hin] at ho; injection ho with ho2; rw [← ho2]) j

theorem setNext_sum (orders : List Order) (p : Nat) (nxt : Option Nat) :
    ((setNext orders p nxt).map qtyNat).sum = (orders.map qtyNat).sum := by
  unfold setNext
  cases hp : orders[p]? with
  | none => rfl
  | some o =>
    show ((orders.set p { o with next := nxt }).map qtyNat).sum =
      (orders.map qtyNat).sum
    have h := map_sum_set qtyNat orders p { o with next := nxt } o hp
    have hq : qtyNat { o with next := nxt } = qtyNat o := rfl
    omega

theorem tradeResult_sum (book : OrderBook) (incomingId : Nat) (inO : Order)
    (bestId : Nat) (best : Order) (bp : Option Nat) (traded : Int) :
    ((tradeResult book incomingId inO bestId best bp traded).orders.map qtyNat).sum =
      (((book.orders.set incomingId
          { inO with quantity := inO.quantity - traded }).set bestId
          { best with quantity := best.quantity - traded }).map qtyNat).sum := by
  unfold tradeResult
  repeat split
  all_goals first
    | rfl
    | exact setNext_sum _ _ _

/-- Every trade strictly shrinks the total remaining quantity of the heap
when the incoming order's quantity was positive. -/
theorem match_order_qty_dec (book : OrderBook) (incomingId fuel : Nat)
    (book' : OrderBook) (t : Trade) (inO : Order)
    (hmo : match_order book incomingId fuel = some (book', true, some t))
    (hin : book.orders[incomingId]? = some inO)
    (hinpos : 0 < inO.quantity) :
    totalQty book' < totalQty book := by
  rcases match_order_true_elim book incomingId fuel book' t hmo with
    ⟨inO2, b, bp, hin2, _, hb, hpos, _, hne, hnz, _, hbook'⟩
  have hio : inO = inO2 := by
    have h2 := hin.symm.trans hin2
    injection h2
  subst hio
  subst hbook'
  have horders1b : (book.orders.set incomingId
      { inO with quantity := inO.quantity - min inO.quantity b.2.quantity })[b.1]? =
      some b.2 := by
    rw [List.getElem?_set_ne (fun hx => hne hx.symm)]
    exact hb
  unfold totalQty
  rw [tradeResult_sum]
  have hs1 := map_sum_set qtyNat book.orders incomingId
    { inO with quantity := inO.quantity - min inO.quantity b.2.quantity } inO hin
  have hs2 := map_sum_set qtyNat
    (book.orders.set incomingId
      { inO with quantity := inO.quantity - min inO.quantity b.2.quantity }) b.1
    { b.2 with quantity := b.2.quantity - min inO.quantity b.2.quantity } b.2 horders1b
  simp only [qtyNat] at hs1 hs2
  omega

/-- On a well-formed book, `match_order` always returns a result. -/
theorem match_order_total (book : OrderBook) (incomingId : Nat) (inO : Order)
    (l : List (Nat × Order)) (fuel : Nat)
    (hin : book.orders[incomingId]? = some inO)
    (hchain : chainPairs book.orders book.head fuel = some l) :
    ∃ r, match_order book incomingId fuel = some r := by
  have hsim := findLoop_eq_scanList book.orders inO fuel book.head l none none none hchain
  cases hsc : scanList inO l none none none with
  | mk fst snd =>
    rw [hsc] at hsim
    cases fst with
    | none =>
      exact ⟨(book, false, none), match_order_no_best book incomingId fuel inO snd hin hsim⟩
    | some b =>
      by_cases hz : min inO.quantity b.2.quantity = 0
      · exact ⟨(book, false, none),
          match_order_zero book incomingId fuel inO b snd hin hsim hz⟩
      · rcases findLoop_best_sound book.orders inO fuel book.head none none none b snd
          hsim with hacc | ⟨hb, _, helig⟩
        · exact absurd hacc (by simp)
        · exact ⟨_, match_order_trade_eq book incomingId fuel inO b snd hin hsim hz hb
            (best_ne_incoming book incomingId inO b hin hb helig)⟩

/-- A `true` return from `match_order` always carries a trade record. -/
theorem match_order_true_some (book : OrderBook) (incomingId fuel : Nat)
    (book' : OrderBook) (tr : Option Trade)
    (h : match_order book incomingId fuel = some (book', true, tr)) :
    ∃ t, tr = some t := by
  cases tr with
  | some t => exact ⟨t, rfl⟩
  | none =>
    exfalso
    cases hin : book.orders[incomingId]? with
    | none => simp only [match_order, hin] at h; exact absurd h (by simp)
    | some inO =>
      cases hscan : findLoop book.orders inO fuel book.head none none none with
      | none => simp only [match_order, hin, hscan] at h; exact absurd h (by simp)
      | some res =>
        obtain ⟨bestO, bp⟩ := res
        cases bestO with
        | none =>
          rw [match_order_no_best book incomingId fuel inO bp hin hscan] at h
          simp only [Option.some.injEq, Prod.mk.injEq] at h
          exact absurd h.2.1 (by simp)
        | some b =>
          by_cases hz : min inO.quantity b.2.quantity = 0
          · rw [match_order_zero book incomingId fuel inO b bp hin hscan hz] at h
            simp only [Option.some.injEq, Prod.mk.injEq] at h
            exact absurd h.2.1 (by simp)
          · rcases findLoop_best_sound book.orders inO fuel book.head none none none
              b bp hscan with hacc | ⟨hb, _, helig⟩
            · exact absurd hacc (by simp)
            · rw [match_order_trade_eq book incomingId fuel inO b bp hin hscan hz hb
                (best_ne_incoming book incomingId inO b hin hb helig)] at h
              simp only [Option.some.injEq, Prod.mk.injEq] at h
              exact absurd h.2.2 (by simp)

/-- On a book with no crossable pair, the matching sweep walks the chain
to its end, produces no trade and leaves the book untouched. -/
theorem processLoop_quiescent (book : OrderBook) (l : List (Nat × Order))
    (hchain : chainPairs book.orders book.head book.orders.length = some l)
    (hnocross : ∀ x ∈ l, ∀ y ∈ l, 0 < x.2.quantity → 0 < y.2.quantity →
      eligible x.2 y.2 = false) :
    ∀ (l2 l1 : List (Nat × Order)) (cur : Option Nat) (acc : List Trade) (fuel : Nat),
      l = l1 ++ l2 →
      chainPairs book.orders cur book.orders.length = some l2 →
      l2.length < fuel →
      processLoop book cur acc fuel = some (book, acc.reverse) := by
  intro l2
  induction l2 with
  | nil =>
    intro l1 cur acc fuel _ hsuffix _
    cases cur with
    | none => simp [processLoop]
    | some c =>
      rcases chainPairs_cons_head book.orders c book.orders.length _ hsuffix with
        ⟨o, rest, _, hEq, _⟩
      exact absurd hEq (by simp)
  | cons x l2' ih =>
    intro l1 cur acc fuel hdec hsuffix hfuel
    cases cur with
    | none => simp [chainPairs] at hsuffix
    | some c =>
      rcases chainPairs_cons_head book.orders c book.orders.length _ hsuffix with
        ⟨o, rest, ho, hEq, hdrop⟩
      injection hEq with h1 h2
      subst h1
      subst h2
      simp only [List.length_cons] at hfuel
      obtain ⟨fuel, rfl⟩ : ∃ k, fuel = k + 1 := ⟨fuel - 1, by omega⟩
      have hdropm := chainPairs_mono book.orders _ book.orders.length _ _ hdrop
        (by omega)
      simp only [processLoop, ho]
      have hxin : ((c, o) : Nat × Order) ∈ l := by rw [hdec]; simp
      by_cases hq : 0 < o.quantity
      · rw [if_pos hq]
        have hsim := findLoop_eq_scanList book.orders o book.orders.length book.head l
          none none none hchain
        rcases scanList_start o l none none with ⟨hnone, _⟩ |
          ⟨B, BP, L1, L2, hplEq, hsplit, hpe, _, _, _⟩
        · cases hsc : scanList o l none none none with
          | mk fst snd =>
            rw [hsc] at hsim hnone
            simp only at hnone
            subst hnone
            rw [match_order_no_best book c book.orders.length o snd ho hsim]
            exact ih (l1 ++ [(c, o)]) o.next acc fuel (by rw [hdec]; simp) hdropm
              (by omega)
        · exfalso
          have hBin : B ∈ l := by rw [hsplit]; simp
          have := hnocross (c, o) hxin B hBin hq hpe.1
          rw [(eligible_iff o B.2).mpr hpe.2] at this
          exact absurd this (by simp)
      · rw [if_neg hq]
        exact ih (l1 ++ [(c, o)]) o.next acc fuel (by rw [hdec]; simp) hdropm
          (by omega)

/-- The matching sweep terminates: each trade strictly decreases the heap
total quantity and between trades the scan pointer advances along the
chain. -/
theorem processLoop_total :
    ∀ (n : Nat) (book : OrderBook) (l l1 l2 : List (Nat × Order))
      (cur : Option Nat) (acc : List Trade) (fuel : Nat),
      totalQty book ≤ n →
      chainPairs book.orders book.head book.orders.length = some l →
      (l.map Prod.fst).Nodup →
      l = l1 ++ l2 →
      chainPairs book.orders cur book.orders.length = some l2 →
      l2.length + totalQty book * (book.orders.length + 1) < fuel →
      ∃ book' trs, processLoop book cur acc fuel = some (book', trs) := by
  intro n
  induction n using Nat.strong_induction_on with
  | _ n ihn =>
    intro book l l1 l2
    induction l2 generalizing l1 with
    | nil =>
      intro cur acc fuel _ _ _ _ hsuffix _
      cases cur with
      | none => exact ⟨book, acc.reverse, by simp [processLoop]⟩
      | some c =>
        rcases chainPairs_cons_head book.orders c book.orders.length _ hsuffix with
          ⟨o, rest, _, hEq, _⟩
        exact absurd hEq (by simp)
    | cons x l2' ih2 =>
      intro cur acc fuel hq hchain hnodup hdec hsuffix hfuel
      cases cur with
      | none => exact ⟨book, acc.reverse, by simp [processLoop]⟩
      | some c =>
        rcases chainPairs_cons_head book.orders c book.orders.length _ hsuffix with
          ⟨o, rest, ho, hEq, hdrop⟩
        injection hEq with h1 h2
        subst h1
        subst h2
        simp only [List.length_cons] at hfuel
        obtain ⟨fuel, rfl⟩ : ∃ k, fuel = k + 1 := ⟨fuel - 1, by omega⟩
        have hdropm := chainPairs_mono book.orders _ book.orders.length _ _ hdrop
          (by omega)
        simp only [processLoop, ho]
        by_cases hqo : 0 < o.quantity
        · rw [if_pos hqo]
          rcases match_order_total book c o l book.orders.length ho hchain with ⟨r, hmo⟩
          obtain ⟨bookr, ok, trr⟩ := r
          cases ok with
          | false =>
            rcases match_order_false_frame book c book.orders.length bookr trr hmo with
              ⟨hbr, _⟩
            subst hbr
            rw [hmo]
            exact ih2 (l1 ++ [(c, o)]) o.next acc fuel hq hchain hnodup
              (by rw [hdec]; simp) hdropm (by omega)
          | true =>
            rcases match_order_true_some book c book.orders.length bookr trr hmo with
              ⟨t, rfl⟩
            rcases match_order_chain book c book.orders.length l hchain hnodup bookr t
              hmo with ⟨hlen, l', hl', hsub, _, _⟩
            have hdec2 : totalQty bookr < totalQty book :=
              match_order_qty_dec book c book.orders.length bookr t o hmo ho hqo
            have hnodup' : (l'.map Prod.fst).Nodup := hsub.nodup hnodup
            have hlt : ∀ i ∈ l'.map Prod.fst, i < book.orders.length := by
              intro i hi
              rcases List.mem_map.mp hi with ⟨y, hy, rfl⟩
              have hlk := chainPairs_mem_lookup bookr.orders book.orders.length
                bookr.head l' hl' y hy
              have hlt2 : y.1 < bookr.orders.length := by
                by_contra hxx
                rw [List.getElem?_eq_none (by omega)] at hlk
                exact absurd hlk (by simp)
              omega
            have hlen' : l'.length ≤ book.orders.length := by
              have hsp := (List.subperm_of_subset hnodup'
                (fun i hi => List.mem_range.mpr (hlt i hi))).length_le
              rw [List.length_map, List.length_range] at hsp
              exact hsp
            have hl'' : chainPairs bookr.orders bookr.head bookr.orders.length =
                some l' := by
              rw [hlen]
              exact hl'
            have hmul : (totalQty bookr + 1) * (book.orders.length + 1) ≤
                totalQty book * (book.orders.length + 1) :=
              Nat.mul_le_mul_right _ (by omega)
            have hmul2 : totalQty bookr * (book.orders.length + 1) +
                (book.orders.length + 1) ≤
                totalQty book * (book.orders.length + 1) := by
              rw [← Nat.succ_mul]
              exact hmul
            rw [hmo]
            have hres := ihn (totalQty bookr) (by omega) bookr l' [] l' bookr.head
              ((some t).toList ++ acc) fuel (le_refl _) hl'' hnodup' (by simp) hl''
              (by rw [hlen]; omega)
            exact hres
        · rw [if_neg hqo]
          exact ih2 (l1 ++ [(c, o)]) o.next acc fuel hq hchain hnodup
            (by rw [hdec]; simp) hdropm (by omega)

/-- `get_order_list`'s loop returns every chain node, with no quantity
filter. -/
theorem orderListLoop_eq_chain (orders : List Order) :
    ∀ (fuel : Nat) (cur : Option Nat) (l : List (Nat × Order)),
      chainPairs orders cur fuel = some l →
      orderListLoop orders cur fuel = some (l.map Prod.fst) := by
  intro fuel
  induction fuel with
  | zero =>
    intro cur l h
    cases cur with
    | none => simp [chainPairs] at h; subst h; simp [orderListLoop]
    | some c => simp [chainPairs] at h
  | succ fuel ih =>
    intro cur l h
    cases cur with
    | none => simp [chainPairs] at h; subst h; simp [orderListLoop]
    | some c =>
      simp only [chainPairs] at h
      cases ho : orders[c]? with
      | none => rw [ho] at h; simp at h
      | some o =>
        rw [ho] at h
        rcases Option.map_eq_some'.mp h with ⟨l', hl', hEq⟩
        subst hEq
        simp only [orderListLoop, ho, ih _ _ hl']
        rfl

/-- `display`'s loop returns exactly the chain nodes with positive
quantity. -/
theorem displayLoop_eq_chain (orders : List Order) :
    ∀ (fuel : Nat) (cur : Option Nat) (l : List (Nat × Order)),
      chainPairs orders cur fuel = some l →
      displayLoop orders cur fuel =
        some ((l.filter (fun x => decide (0 < x.2.quantity))).map Prod.fst) := by
  intro fuel
  induction fuel with
  | zero =>
    intro cur l h
    cases cur with
    | none => simp [chainPairs] at h; subst h; simp [displayLoop]
    | some c => simp [chainPairs] at h
  | succ fuel ih =>
    intro cur l h
    cases cur with
    | none => simp [chainPairs] at h; subst h; simp [displayLoop]
    | some c =>
      simp only [chainPairs] at h
      cases ho : orders[c]? with
      | none => rw [ho] at h; simp at h
      | some o =>
        rw [ho] at h
        rcases Option.map_eq_some'.mp h with ⟨l', hl', hEq⟩
        subst hEq
        by_cases hq : 0 < o.quantity
        · simp only [displayLoop, ho, if_pos hq, ih _ _ hl', List.filter_cons,
            Option.map_some']
          rw [if_pos (by simpa using hq)]
          rfl
        · simp only [displayLoop, ho, if_neg hq, ih _ _ hl', List.filter_cons]
          rw [if_neg (by simpa using hq)]

/-- `match_order` keeps every remaining quantity non-negative. -/
theorem match_order_nonneg (book : OrderBook) (incomingId fuel : Nat)
    (book' : OrderBook) (ok : Bool) (tr : Option Trade)
    (h : match_order book incomingId fuel = some (book', ok, tr))
    (hpos : ∀ (j : Nat) (o : Order), book.orders[j]? = some o → 0 ≤ o.quantity) :
    ∀ (j : Nat) (o : Order), book'.orders[j]? = some o → 0 ≤ o.quantity := by
  cases ok with
  | false =>
    rcases match_order_false_frame book incomingId fuel book' tr h with ⟨rfl, _⟩
    exact hpos
  | true =>
    rcases match_order_true_some book incomingId fuel book' tr h with ⟨t, rfl⟩
    rcases match_order_frame book incomingId fuel book' t h with
      ⟨inO, bo, hin, hb, hbpos, _, hne, htq, htnz, _, hq1, hq2, hq3, _⟩
    intro j o hj
    by_cases hj1 : j = incomingId
    · rw [hj1] at hj
      rw [hj] at hq1
      simp only [Option.map_some', Option.some.injEq] at hq1
      have hi := hpos incomingId inO hin
      omega
    · by_cases hj2 : j = t.candidate
      · rw [hj2] at hj
        rw [hj] at hq2
        simp only [Option.map_some', Option.some.injEq] at hq2
        omega
      · have := hq3 j hj1 hj2
        rw [hj] at this
        cases ho : book.orders[j]? with
        | none => rw [ho] at this; simp at this
        | some o2 =>
          rw [ho] at this
          simp only [Option.map_some', Option.some.injEq] at this
          have := hpos j o2 ho
          omega

/-- `match_order` never changes a quantity that has already reached 0. -/
theorem match_order_terminal (book : OrderBook) (incomingId fuel : Nat)
    (book' : OrderBook) (ok : Bool) (tr : Option Trade)
    (h : match_order book incomingId fuel = some (book', ok, tr))
    (j : Nat) (o : Order) (hj : book.orders[j]? = some o)
    (hq0 : o.quantity = 0) :
    (book'.orders[j]?).map Order.quantity = some 0 := by
  cases ok with
  | false =>
    rcases match_order_false_frame book incomingId fuel book' tr h with ⟨rfl, _⟩
    rw [hj]
    simp [hq0]
  | true =>
    rcases match_order_true_some book incomingId fuel book' tr h with ⟨t, rfl⟩
    rcases match_order_frame book incomingId fuel book' t h with
      ⟨inO, bo, hin, hb, hbpos, _, hne, htq, htnz, _, hq1, hq2, hq3, _⟩
    by_cases hj1 : j = incomingId
    · exfalso
      rw [hj1] at hj
      have hio : inO = o := by
        have h2 := hin.symm.trans hj
        injection h2
      have hmin : inO.quantity ⊓ bo.quantity ≠ 0 := by rw [← htq]; exact htnz
      rw [hio, hq0] at hmin
      omega
    · by_cases hj2 : j = t.candidate
      · exfalso
        rw [hj2] at hj
        have hboo : bo = o := by
          have h2 := hb.symm.trans hj
          injection h2
        rw [hboo, hq0] at hbpos
        omega
      · rw [hq3 j hj1 hj2, hj]
        simp [hq0]

/-- The matching sweep keeps every remaining quantity non-negative. -/
theorem processLoop_nonneg :
    ∀ (fuel : Nat) (book : OrderBook) (cur : Option Nat) (acc : List Trade)
      (book' : OrderBook) (trs : List Trade),
      processLoop book cur acc fuel = some (book', trs) →
      (∀ (j : Nat) (o : Order), book.orders[j]? = some o → 0 ≤ o.quantity) →
      ∀ (j : Nat) (o : Order), book'.orders[j]? = some o → 0 ≤ o.quantity := by
  intro fuel
  induction fuel with
  | zero =>
    intro book cur acc book' trs h hpos
    cases cur with
    | none =>
      simp only [processLoop, Option.some.injEq, Prod.mk.injEq] at h
      rw [← h.1]
      exact hpos
    | some c => simp [processLoop] at h
  | succ fuel ih =>
    intro book cur acc book' trs h hpos
    cases cur with
    | none =>
      simp only [processLoop, Option.some.injEq, Prod.mk.injEq] at h
      rw [← h.1]
      exact hpos
    | some c =>
      simp only [processLoop] at h
      cases ho : book.orders[c]? with
      | none => rw [ho] at h; simp at h
      | some o =>
        rw [ho] at h
        simp only at h
        by_cases hq : 0 < o.quantity
        · rw [if_pos hq] at h
          cases hmo : match_order book c book.orders.length with
          | none => rw [hmo] at h; simp at h
          | some r =>
            rw [hmo] at h
            obtain ⟨bookr, ok, trr⟩ := r
            cases ok with
            | true =>
              exact ih bookr bookr.head _ book' trs h
                (match_order_nonneg book c book.orders.length bookr true trr hmo hpos)
            | false =>
              exact ih bookr o.next acc book' trs h
                (match_order_nonneg book c book.orders.length bookr false trr hmo hpos)
        · rw [if_neg hq] at h
          exact ih book o.next acc book' trs h hpos

/-- The matching sweep never changes a quantity that reached 0. -/
theorem processLoop_terminal :
    ∀ (fuel : Nat) (book : OrderBook) (cur : Option Nat) (acc : List Trade)
      (book' : OrderBook) (trs : List Trade),
      processLoop book cur acc fuel = some (book', trs) →
      ∀ (j : Nat) (o : Order), book.orders[j]? = some o → o.quantity = 0 →
      (book'.orders[j]?).map Order.quantity = some 0 := by
  intro fuel
  induction fuel with
  | zero =>
    intro book cur acc book' trs h j o hj hq0
    cases cur with
    | none =>
      simp only [processLoop, Option.some.injEq, Prod.mk.injEq] at h
      rw [← h.1, hj]
      simp [hq0]
    | some c => simp [processLoop] at h
  | succ fuel ih =>
    intro book cur acc book' trs h j o hj hq0
    cases cur with
    | none =>
      simp only [processLoop, Option.some.injEq, Prod.mk.injEq] at h
      rw [← h.1, hj]
      simp [hq0]
    | some c =>
      simp only [processLoop] at h
      cases ho : book.orders[c]? with
      | none => rw [ho] at h; simp at h
      | some o2 =>
        rw [ho] at h
        simp only at h
        by_cases hq : 0 < o2.quantity
        · rw [if_pos hq] at h
          cases hmo : match_order book c book.orders.length with
          | none => rw [hmo] at h; simp at h
          | some r =>
            rw [hmo] at h
            obtain ⟨bookr, ok, trr⟩ := r
            have hmid := match_order_terminal book c book.orders.length bookr ok trr
              hmo j o hj hq0
            rcases Option.map_eq_some'.mp hmid with ⟨omid, homid, homid0⟩
            cases ok with
            | true => exact ih bookr bookr.head _ book' trs h j omid homid homid0
            | false => exact ih bookr o2.next acc book' trs h j omid homid homid0
        · rw [if_neg hq] at h
          exact ih book o2.next acc book' trs h j o hj hq0

/-! Concrete books used in the end-to-end scenarios, counterexamples and
witnesses. -/

/-- Witness book: SELL(1,5,10) inserted, then BUY(1,5,12). -/
def bW : OrderBook :=
  addNew (addNew OrderBook.empty (Order.init OrderType.SELL 1 5 10))
    (Order.init OrderType.BUY 1 5 12)

/-- The chain of `bW`, head to tail. -/
def lW : List (Nat × Order) :=
  [(1, ⟨OrderType.BUY, 1, 5, 12, some 0⟩), (0, ⟨OrderType.SELL, 1, 5, 10, none⟩)]

/-- C4 scenario: SELL(1,10,100) first, then SELL(1,20,100), then
BUY(1,25,100). -/
def bC4 : OrderBook :=
  addNew (addNew (addNew OrderBook.empty (Order.init OrderType.SELL 1 10 100))
    (Order.init OrderType.SELL 1 20 100)) (Order.init OrderType.BUY 1 25 100)

def bC4F : OrderBook := ((process_orders bC4 10).getD (OrderBook.empty, [])).1

/-- End-to-end scenario for the snapshot claim: SELL(1,50,100), sweep,
then BUY(1,30,105), sweep. -/
def bC5a : OrderBook := addNew OrderBook.empty (Order.init OrderType.SELL 1 50 100)

def bC5b : OrderBook := ((process_orders bC5a 5).getD (OrderBook.empty, [])).1

def bC5c : OrderBook := addNew bC5b (Order.init OrderType.BUY 1 30 105)

def bC5d : OrderBook := ((process_orders bC5c 10).getD (OrderBook.empty, [])).1

/-- Scenario leading to a zero-quantity node at the head: SELL(1,5,80),
then BUY(1,5,70) (no cross), then BUY(1,5,100) which trades away the SELL
and stays linked, fully filled, at the head. -/
def bC3a : OrderBook :=
  addNew (addNew (addNew OrderBook.empty (Order.init OrderType.SELL 1 5 80))
    (Order.init OrderType.BUY 1 5 70)) (Order.init OrderType.BUY 1 5 100)

def bC3b : OrderBook := ((match_order bC3a 2 3).getD (OrderBook.empty, false, none)).1

/-- A further SELL is constructed (not inserted) and matched directly. -/
def bC3c : OrderBook := (alloc bC3b (Order.init OrderType.SELL 1 5 60)).1

def bC3d : OrderBook := ((match_order bC3c 3 4).getD (OrderBook.empty, false, none)).1

/-- C4: inserting SELL(1,10,100), SELL(1,20,100), BUY(1,25,100) and
running one `process_orders` sweep yields exactly two trades — 20 shares
against the more recently inserted SELL (order 1), fully consuming it,
then 5 against the earlier SELL (order 0) — leaving the BUY (order 2)
fully filled and the earlier SELL with remaining quantity 5; both trades
execute at price 100. -/
theorem c4_partial_fill_chain :
    process_orders bC4 10 =
      some (bC4F, [⟨1, 20, 100⟩, ⟨0, 5, 100⟩]) ∧
    (bC4F.orders[2]?).map Order.quantity = some 0 ∧
    (bC4F.orders[1]?).map Order.quantity = some 0 ∧
    (bC4F.orders[0]?).map Order.quantity = some 5 := by
  exact ⟨by decide, by decide, by decide, by decide⟩

/-- C9: constructing an Order with any requested quantity, including zero
and negative values, yields `remaining_quantity = max 1 q`, hence always
positive; construction never rejects. -/
theorem c9_creation_quantity (t : OrderType) (ticker q p : Int) :
    (Order.init t ticker q p).quantity = max 1 q ∧
    0 < (Order.init t ticker q p).quantity := by
  refine ⟨rfl, ?_⟩
  simp only [Order.init]
  omega

/-- C3 counterexample: the trade on book `bC3c` fully consumes resting
candidate 1 (the trade record is candidate 1, 5 shares at 70), its
remaining quantity is 0 after the trade, and yet it is still reachable
from the head — `get_order_list` still returns `[2, 1]` — because only a
zero-quantity node precedes it, so the scan recorded no predecessor and
the head-level CAS failed. -/
theorem c3_counterexample :
    match_order bC3c 3 4 = some (bC3d, true, some ⟨1, 5, 70⟩) ∧
    (bC3d.orders[1]?).map Order.quantity = some 0 ∧
    bC3d.head = some 2 ∧
    get_order_list bC3d 4 = some [2, 1] := by
  exact ⟨by decide, by decide, by decide, by decide⟩

/-- C5 counterexample: after the end-to-end scenario, the BUY (order 1)
is fully filled — remaining quantity 0 — yet `get_order_list` still
returns it: the snapshot has no positive-quantity filter. -/
theorem c5_counterexample :
    process_orders bC5c 10 = some (bC5d, [⟨0, 30, 100⟩]) ∧
    (bC5d.orders[1]?).map Order.quantity = some 0 ∧
    get_order_list bC5d 5 = some [1, 0] ∧
    display_rows bC5d 5 = some [0] := by
  exact ⟨by decide, by decide, by decide, by decide⟩

/-- C6 counterexample: on book `bC3c` the search phase selects candidate
1, which is not the head (the head is node 2), and still returns `none`
as the candidate's predecessor — the recorded predecessor is not `none`
exactly when the candidate is the head. -/
theorem c6_counterexample :
    findLoop bC3c.orders (Order.init OrderType.SELL 1 5 60) 4 bC3c.head
      none none none =
      some (some (1, ⟨OrderType.BUY, 1, 5, 70, none⟩), none) ∧
    bC3c.head = some 2 := by
  exact ⟨by decide, by decide⟩

/-- C1: for every book list and incoming order, the best-match scan
considers a node eligible exactly when it has the same instrument id, the
opposite side and a crossing price; it skips every node with remaining
quantity ≤ 0; among eligible nodes it selects the one with the extremal
price (lowest for an incoming BUY, highest for an incoming SELL) using
strict comparison, so that on price ties the earliest-scanned eligible
node is selected (it strictly beats everything scanned before it); and it
selects nothing when no eligible node exists. -/
theorem c1_scan_characterization (book : OrderBook) (incoming : Order)
    (fuel : Nat) (l : List (Nat × Order))
    (hchain : chainPairs book.orders book.head fuel = some l) :
    ∃ res, findLoop book.orders incoming fuel book.head none none none =
        some res ∧
      ((res.1 = none ∧
          ∀ x ∈ l, ¬ (0 < x.2.quantity ∧ EligibleSpec incoming x.2)) ∨
       (∃ B l1 l2, res.1 = some B ∧ l = l1 ++ B :: l2 ∧
          0 < B.2.quantity ∧ EligibleSpec incoming B.2 ∧
          (∀ x ∈ l, 0 < x.2.quantity → EligibleSpec incoming x.2 →
            (incoming.type = OrderType.BUY → B.2.price ≤ x.2.price) ∧
            (incoming.type = OrderType.SELL → x.2.price ≤ B.2.price)) ∧
          (∀ x ∈ l1, 0 < x.2.quantity → EligibleSpec incoming x.2 →
            strictlyBetter incoming B.2.price x.2.price))) := by
  have hsim := findLoop_eq_scanList book.orders incoming fuel book.head l none none
    none hchain
  refine ⟨scanList incoming l none none none, hsim, ?_⟩
  rcases scanList_start incoming l none none with ⟨hnone, hall⟩ |
    ⟨B, BP, l1, l2, hEq, hsplit, hpe, hall1, hall2, _⟩
  · exact Or.inl ⟨hnone, fun x hx => hall x hx⟩
  · refine Or.inr ⟨B, l1, l2, by rw [hEq], hsplit, hpe.1, hpe.2, ?_, ?_⟩
    · intro x hx hxq hxe
      constructor
      · intro hbuy
        rw [hsplit] at hx
        rcases List.mem_append.mp hx with hx | hx
        · rcases hall1 x hx ⟨hxq, hxe⟩ with ⟨_, hlt⟩ | ⟨hty, _⟩
          · omega
          · exact absurd (hbuy.symm.trans hty) (by simp)
        · rcases List.mem_cons.mp hx with rfl | hx
          · omega
          · have hnb := hall2 x hx ⟨hxq, hxe⟩
            by_contra hlt
            exact hnb (Or.inl ⟨hbuy, by omega⟩)
      · intro hsell
        rw [hsplit] at hx
        rcases List.mem_append.mp hx with hx | hx
        · rcases hall1 x hx ⟨hxq, hxe⟩ with ⟨hty, _⟩ | ⟨_, hlt⟩
          · exact absurd (hsell.symm.trans hty) (by simp)
          · omega
        · rcases List.mem_cons.mp hx with rfl | hx
          · omega
          · have hnb := hall2 x hx ⟨hxq, hxe⟩
            by_contra hlt
            exact hnb (Or.inr ⟨hsell, by omega⟩)
    · intro x hx hxq hxe
      exact hall1 x hx ⟨hxq, hxe⟩

/-- C2: every executed trade trades exactly
`min(incoming remaining, candidate remaining)` shares, both remaining
quantities decrease by exactly the traded quantity, the trade executes at
the candidate's price, and the trade satisfies price crossing. -/
theorem c2_trade_conservation (book : OrderBook) (incomingId fuel : Nat)
    (book' : OrderBook) (tr : Trade)
    (h : match_order book incomingId fuel = some (book', true, some tr)) :
    ∃ inO bo, book.orders[incomingId]? = some inO ∧
      book.orders[tr.candidate]? = some bo ∧
      tr.qty = min inO.quantity bo.quantity ∧
      (∃ q', (book'.orders[incomingId]?).map Order.quantity = some q' ∧
        q' + tr.qty = inO.quantity) ∧
      (∃ q', (book'.orders[tr.candidate]?).map Order.quantity = some q' ∧
        q' + tr.qty = bo.quantity) ∧
      tr.price = bo.price ∧
      (inO.type = OrderType.BUY → bo.price ≤ inO.price) ∧
      (inO.type = OrderType.SELL → inO.price ≤ bo.price) := by
  rcases match_order_frame book incomingId fuel book' tr h with
    ⟨inO, bo, hin, hb, hbpos, helig, hne, htq, htnz, htp, hq1, hq2, _, _⟩
  rcases (eligible_iff inO bo).mp helig with ⟨hticker, hdisj⟩
  refine ⟨inO, bo, hin, hb, htq,
    ⟨inO.quantity - tr.qty, hq1, by ring⟩,
    ⟨bo.quantity - tr.qty, hq2, by ring⟩, htp, ?_, ?_⟩
  · intro hbuy
    rcases hdisj with ⟨_, _, hle⟩ | ⟨hty, _⟩
    · exact hle
    · exact absurd (hbuy.symm.trans hty) (by simp)
  · intro hsell
    rcases hdisj with ⟨hty, _⟩ | ⟨_, _, hle⟩
    · exact absurd (hsell.symm.trans hty) (by simp)
    · exact hle

/-- C5 (amended): `get_order_list` returns exactly the nodes reachable
from the head, in head-to-tail order, with no quantity filter — a node
whose remaining quantity is 0 is still returned; the positive-quantity
filter belongs to `display`, whose rows are exactly the reachable nodes
with positive quantity. -/
theorem c5_snapshot_amended (book : OrderBook) (fuel : Nat)
    (l : List (Nat × Order))
    (hchain : chainPairs book.orders book.head fuel = some l) :
    get_order_list book fuel = some (l.map Prod.fst) ∧
    display_rows book fuel =
      some ((l.filter (fun x => decide (0 < x.2.quantity))).map Prod.fst) ∧
    (∀ x ∈ l, x.2.quantity = 0 →
      x.1 ∈ l.map Prod.fst ∧
      ∀ rows, display_rows book fuel = some rows → x.1 ∉ rows) := by
  refine ⟨orderListLoop_eq_chain book.orders fuel book.head l hchain,
    displayLoop_eq_chain book.orders fuel book.head l hchain, ?_⟩
  intro x hx hq0
  refine ⟨List.mem_map.mpr ⟨x, hx, rfl⟩, ?_⟩
  intro rows hrows
  have hrows2 := displayLoop_eq_chain book.orders fuel book.head l hchain
  unfold display_rows at hrows
  rw [hrows] at hrows2
  injection hrows2 with hrows2
  rw [hrows2]
  intro hmem
  rcases List.mem_map.mp hmem with ⟨y, hy, hyx⟩
  have hy2 := List.mem_filter.mp hy
  have hylk := chainPairs_mem_lookup book.orders fuel book.head l hchain y hy2.1
  have hxlk := chainPairs_mem_lookup book.orders fuel book.head l hchain x hx
  rw [hyx, hxlk] at hylk
  have hyq : (0 : Int) < y.2.quantity := by
    have := hy2.2
    simpa using this
  have hxy : x.2 = y.2 := by injection hylk
  rw [← hxy, hq0] at hyq
  omega

/-- C7: on a well-formed book `match_order` always returns a result (it
never raises); a `false` result always leaves the book unchanged with no
trade logged; in particular when no eligible candidate exists, or when the
computed traded quantity is 0, the result is `false` with no mutation and
no trade record. -/
theorem c7_no_raise_false_frame (book : OrderBook) (incomingId fuel : Nat)
    (inO : Order) (l : List (Nat × Order))
    (hin : book.orders[incomingId]? = some inO)
    (hchain : chainPairs book.orders book.head fuel = some l) :
    ∃ book' ok tr, match_order book incomingId fuel = some (book', ok, tr) ∧
      (ok = false → book' = book ∧ tr = none) ∧
      ((∀ x ∈ l, ¬ (0 < x.2.quantity ∧ EligibleSpec inO x.2)) →
        book' = book ∧ ok = false ∧ tr = none) ∧
      (∀ b bp, findLoop book.orders inO fuel book.head none none none =
          some (some b, bp) → min inO.quantity b.2.quantity = 0 →
        book' = book ∧ ok = false ∧ tr = none) := by
  rcases match_order_total book incomingId inO l fuel hin hchain with ⟨r, hr⟩
  obtain ⟨book', ok, tr⟩ := r
  refine ⟨book', ok, tr, hr, ?_, ?_, ?_⟩
  · intro hok
    subst hok
    exact match_order_false_frame book incomingId fuel book' tr hr
  · intro hnone
    have hsim := findLoop_eq_scanList book.orders inO fuel book.head l none none
      none hchain
    rcases scanList_start inO l none none with ⟨hres, _⟩ |
      ⟨B, BP, l1, l2, hEq, hsplit, hpe, _, _, _⟩
    · cases hsc : scanList inO l none none none with
      | mk fst snd =>
        rw [hsc] at hsim hres
        simp only at hres
        subst hres
        have := match_order_no_best book incomingId fuel inO snd hin hsim
        rw [this] at hr
        injection hr with hr
        injection hr with h1 h2
        injection h2 with h2 h3
        exact ⟨h1.symm, h2.symm, h3.symm⟩
    · exfalso
      have hBin : B ∈ l := by rw [hsplit]; simp
      exact hnone B hBin hpe
  · intro b bp hscan hz
    have := match_order_zero book incomingId fuel inO b bp hin hscan hz
    rw [this] at hr
    injection hr with hr
    injection hr with h1 h2
    injection h2 with h2 h3
    exact ⟨h1.symm, h2.symm, h3.symm⟩

/-- C3 (amended): every remaining quantity is ≥ 0 under creation,
`match_order` and `process_orders`; quantity 0 is terminal — a filled
order's quantity never changes again and a filled order is never again
selected as a match candidate; and a resting candidate whose quantity
reaches 0 in a trade is unreachable from the head afterwards provided it
is the head or some positive-quantity node precedes it in the list (when
only zero-quantity nodes precede it the head CAS fails and the filled
candidate stays reachable). -/
theorem c3_quantity_invariant_amended :
    (∀ (t : OrderType) (tk q p : Int), 0 < (Order.init t tk q p).quantity) ∧
    (∀ (book : OrderBook) (incomingId fuel : Nat) (book' : OrderBook)
       (ok : Bool) (tr : Option Trade),
      match_order book incomingId fuel = some (book', ok, tr) →
      (∀ (j : Nat) (o : Order), book.orders[j]? = some o → 0 ≤ o.quantity) →
      ∀ (j : Nat) (o : Order), book'.orders[j]? = some o → 0 ≤ o.quantity) ∧
    (∀ (book : OrderBook) (fuel : Nat) (book' : OrderBook) (trs : List Trade),
      process_orders book fuel = some (book', trs) →
      (∀ (j : Nat) (o : Order), book.orders[j]? = some o → 0 ≤ o.quantity) →
      ∀ (j : Nat) (o : Order), book'.orders[j]? = some o → 0 ≤ o.quantity) ∧
    (∀ (book : OrderBook) (incomingId fuel : Nat) (book' : OrderBook)
       (ok : Bool) (tr : Option Trade) (j : Nat) (o : Order),
      match_order book incomingId fuel = some (book', ok, tr) →
      book.orders[j]? = some o → o.quantity = 0 →
      (book'.orders[j]?).map Order.quantity = some 0) ∧
    (∀ (book : OrderBook) (fuel : Nat) (book' : OrderBook) (trs : List Trade)
       (j : Nat) (o : Order),
      process_orders book fuel = some (book', trs) →
      book.orders[j]? = some o → o.quantity = 0 →
      (book'.orders[j]?).map Order.quantity = some 0) ∧
    (∀ (book : OrderBook) (incomingId fuel : Nat) (book' : OrderBook) (t : Trade),
      match_order book incomingId fuel = some (book', true, some t) →
      ∃ bo, book.orders[t.candidate]? = some bo ∧ 0 < bo.quantity) ∧
    (∀ (book : OrderBook) (incomingId fuel : Nat) (l : List (Nat × Order))
       (book' : OrderBook) (t : Trade),
      chainPairs book.orders book.head fuel = some l →
      (l.map Prod.fst).Nodup →
      match_order book incomingId fuel = some (book', true, some t) →
      ∀ (L1 : List (Nat × Order)) (bo : Order) (L2 : List (Nat × Order)),
        l = L1 ++ (t.candidate, bo) :: L2 →
        bo.quantity - t.qty = 0 →
        (L1 = [] ∨ ∃ x ∈ L1, 0 < x.2.quantity) →
        ∃ l', chainPairs book'.orders book'.head fuel = some l' ∧
          t.candidate ∉ l'.map Prod.fst) := by
  refine ⟨?_, ?_, ?_, ?_, ?_, ?_, ?_⟩
  · intro t tk q p
    simp only [Order.init]
    omega
  · intro book incomingId fuel book' ok tr h hpos
    exact match_order_nonneg book incomingId fuel book' ok tr h hpos
  · intro book fuel book' trs h hpos
    exact processLoop_nonneg fuel book book.head [] book' trs h hpos
  · intro book incomingId fuel book' ok tr j o h hj hq0
    exact match_order_terminal book incomingId fuel book' ok tr h j o hj hq0
  · intro book fuel book' trs j o h hj hq0
    exact processLoop_terminal fuel book book.head [] book' trs h j o hj hq0
  · intro book incomingId fuel book' t h
    rcases match_order_frame book incomingId fuel book' t h with
      ⟨inO, bo, _, hb, hbpos, _⟩
    exact ⟨bo, hb, hbpos⟩
  · intro book incomingId fuel l book' t hchain hnodup h L1 bo L2 hdec hq0 hcond
    rcases match_order_chain book incomingId fuel l hchain hnodup book' t h with
      ⟨_, l', hl', _, _, hrem⟩
    exact ⟨l', hl', hrem L1 bo L2 hdec hq0 hcond⟩

/-- C6 (amended): together with the candidate the scan returns the most
recently scanned *positive-quantity* node preceding the candidate —
`none` exactly when every preceding node has remaining quantity ≤ 0, and
in particular whenever the candidate is the head; the returned
predecessor need not be the candidate's immediate predecessor. When the
candidate's quantity reaches 0 in the trade, unlinking performs a
head-level CAS from the candidate to `candidate.next` if the returned
predecessor is `none` (the swap takes effect only if the candidate
actually is the head, otherwise no link changes), and otherwise sets the
returned predecessor's `next` link to `candidate.next`. -/
theorem c6_scan_prev_amended (book : OrderBook) (incomingId fuel : Nat)
    (inO : Order) (l : List (Nat × Order)) (b : Nat × Order) (bp : Option Nat)
    (hin : book.orders[incomingId]? = some inO)
    (hchain : chainPairs book.orders book.head fuel = some l)
    (hnodup : (l.map Prod.fst).Nodup)
    (hscan : findLoop book.orders inO fuel book.head none none none =
      some (some b, bp)) :
    ∃ l1 l2, l = l1 ++ b :: l2 ∧
      bp = lastPosFrom none l1 ∧
      ((∀ x ∈ l1, x.2.quantity ≤ 0) ↔ bp = none) ∧
      (book.head = some b.1 → bp = none) ∧
      (∀ p, bp = some p → ∃ x ∈ l1, x.1 = p ∧ 0 < x.2.quantity) ∧
      (∀ (book' : OrderBook) (tr : Trade),
        match_order book incomingId fuel = some (book', true, some tr) →
        tr.candidate = b.1 ∧ tr.qty = min inO.quantity b.2.quantity ∧
        (b.2.quantity - tr.qty = 0 →
          (bp = none →
            book'.head = (if book.head = some b.1 then b.2.next else book.head) ∧
            ∀ j : Nat, (book'.orders[j]?).map Order.next =
              (book.orders[j]?).map Order.next) ∧
          (∀ p, bp = some p →
            book'.head = book.head ∧
            (book'.orders[p]?).map Order.next = some b.2.next ∧
            ∀ j : Nat, j ≠ p → (book'.orders[j]?).map Order.next =
              (book.orders[j]?).map Order.next))) := by
  rcases findLoop_best_sound book.orders inO fuel book.head none none none b bp hscan with
    hacc | ⟨hb, hbpos, helig⟩
  · exact absurd hacc (by simp)
  have hsim := findLoop_eq_scanList book.orders inO fuel book.head l none none none hchain
  rw [hscan] at hsim
  injection hsim with hsim
  rcases scanList_start inO l none none with ⟨hnone, _⟩ |
    ⟨B, BP, l1, l2, hplEq, hsplit, _, _, _, hbp⟩
  · rw [← hsim] at hnone
    simp at hnone
  rw [← hsim] at hplEq
  injection hplEq with hB hBP
  injection hB with hB
  subst hB
  subst hBP
  refine ⟨l1, l2, hsplit, hbp, ?_, ?_, ?_, ?_⟩
  · -- no positive node precedes the candidate iff no predecessor was kept
    rcases lastPosFrom_spec l1 none with ⟨hEqn, halln⟩ |
      ⟨l1a, px, lmid, hsplit1, hpxpos, _, hEqs⟩
    · constructor
      · intro _
        rw [hbp, hEqn]
      · intro _
        exact halln
    · constructor
      · intro hallz
        exact absurd hpxpos (by
          have h := hallz px (by rw [hsplit1]; simp)
          omega)
      · intro hbpn
        rw [hbp, hEqs] at hbpn
        exact absurd hbpn (by simp)
  · -- a head candidate has an empty prefix, so no predecessor was kept
    intro hh
    rcases chainPairs_cons_head book.orders b.1 fuel l (by rw [← hh]; exact hchain) with
      ⟨o0, rest, ho0, hl0, _⟩
    have ho0b : o0 = b.2 := by
      rw [hb] at ho0
      injection ho0 with hx
      exact hx.symm
    rw [ho0b] at hl0
    have hsplit' : l = l1 ++ (b.1, b.2) :: l2 := by rw [hsplit]
    have hEqc : [] ++ (b.1, b.2) :: rest = l1 ++ (b.1, b.2) :: l2 := by
      rw [List.nil_append, ← hl0]
      exact hsplit'
    have hnd0 : (([] ++ (b.1, b.2) :: rest).map Prod.fst).Nodup := by
      rw [List.nil_append, ← hl0]
      exact hnodup
    rcases nodup_split_unique [] l1 b.1 b.2 b.2 rest l2 hEqc hnd0 with ⟨hl1nil, _, _⟩
    rw [hbp, ← hl1nil]
    rfl
  · -- a kept predecessor is a positive node of the prefix
    intro p hbps
    have hbps2 : lastPosFrom none l1 = some p := by
      rw [← hbp]
      exact hbps
    rcases lastPosFrom_spec l1 none with ⟨hEqn, _⟩ |
      ⟨l1a, px, lmid, hsplit1, hpxpos, _, hEqs⟩
    · rw [hEqn] at hbps2
      exact absurd hbps2 (by simp)
    · have hpx : px.1 = p := Option.some.inj (by rw [← hEqs]; exact hbps2)
      exact ⟨px, by rw [hsplit1]; simp, hpx, hpxpos⟩
  · -- unlink behaviour of the trade phase in terms of the returned prev
    intro book' tr hmo
    rcases match_order_true_elim book incomingId fuel book' tr hmo with
      ⟨inO2, b2, bp2, hin2, hscan2, hb2x, _, _, hne2, _, htr, hbook'⟩
    rw [hin] at hin2
    injection hin2 with hinEq
    subst hinEq
    rw [hscan] at hscan2
    injection hscan2 with hpair
    injection hpair with h1 h2
    injection h1 with h1
    subst h1
    subst h2
    refine ⟨by rw [htr], by rw [htr], ?_⟩
    intro hfillq
    have hfill : b.2.quantity - min inO.quantity b.2.quantity = 0 := by
      rw [htr] at hfillq
      exact hfillq
    have horders1b : (book.orders.set incomingId
        { inO with quantity := inO.quantity - min inO.quantity b.2.quantity })[b.1]? =
        some b.2 := by
      rw [List.getElem?_set_ne (fun hx => hne2 hx.symm)]
      exact hb2x
    have hnext1 : ∀ j : Nat,
        ((book.orders.set incomingId
          { inO with quantity := inO.quantity - min inO.quantity b.2.quantity })[j]?).map
            Order.next = (book.orders[j]?).map Order.next :=
      map_getElem?_set_pres Order.next book.orders incomingId _
        (fun o ho => by rw [hin] at ho; injection ho with h2x; rw [← h2x])
    have hnext2 : ∀ j : Nat,
        (((book.orders.set incomingId
          { inO with quantity := inO.quantity - min inO.quantity b.2.quantity }).set b.1
          { b.2 with quantity := b.2.quantity - min inO.quantity b.2.quantity })[j]?).map
            Order.next = (book.orders[j]?).map Order.next := by
      intro j
      rw [map_getElem?_set_pres Order.next _ b.1 _
        (fun o ho => by rw [horders1b] at ho; injection ho with h2x; rw [← h2x])]
      exact hnext1 j
    constructor
    · intro hbpn
      subst hbpn
      by_cases hh : book.head = some b.1
      · have hbEq := tradeResult_eq_fill_head_hit book incomingId inO b.1 b.2
          (min inO.quantity b.2.quantity) hfill hh
        rw [hbEq] at hbook'
        have hord : book'.orders = (book.orders.set incomingId
            { inO with quantity := inO.quantity - min inO.quantity b.2.quantity }).set b.1
            { b.2 with quantity := b.2.quantity - min inO.quantity b.2.quantity } := by
          rw [hbook']
        have hhd : book'.head = b.2.next := by rw [hbook']
        refine ⟨?_, ?_⟩
        · rw [hhd]
          exact (if_pos hh).symm
        · intro j
          rw [hord]
          exact hnext2 j
      · have hbEq := tradeResult_eq_fill_head_miss book incomingId inO b.1 b.2
          (min inO.quantity b.2.quantity) hfill hh
        rw [hbEq] at hbook'
        have hord : book'.orders = (book.orders.set incomingId
            { inO with quantity := inO.quantity - min inO.quantity b.2.quantity }).set b.1
            { b.2 with quantity := b.2.quantity - min inO.quantity b.2.quantity } := by
          rw [hbook']
        have hhd : book'.head = book.head := by rw [hbook']
        refine ⟨?_, ?_⟩
        · rw [hhd]
          exact (if_neg hh).symm
        · intro j
          rw [hord]
          exact hnext2 j
    · intro p hbps
      have hbps2 : lastPosFrom none l1 = some p := by
        rw [← hbp]
        exact hbps
      rcases lastPosFrom_spec l1 none with ⟨hEqn, _⟩ |
        ⟨l1a, px, lmid, hsplit1, hpxpos, _, hEqs⟩
      · rw [hEqn] at hbps2
        exact absurd hbps2 (by simp)
      have hpx : px.1 = p := Option.some.inj (by rw [← hEqs]; exact hbps2)
      have hpxl : px ∈ l := by
        rw [hsplit]
        exact List.mem_append_left _ (by rw [hsplit1]; simp)
      have hpin : book.orders[p]? = some px.2 := by
        rw [← hpx]
        exact chainPairs_mem_lookup book.orders fuel book.head l hchain px hpxl
      have h2p : ∃ po, ((book.orders.set incomingId
          { inO with quantity := inO.quantity - min inO.quantity b.2.quantity }).set b.1
          { b.2 with quantity := b.2.quantity - min inO.quantity b.2.quantity })[p]? =
          some po := by
        by_cases hpb : p = b.1
        · subst hpb
          refine ⟨{ b.2 with quantity := b.2.quantity - min inO.quantity b.2.quantity }, ?_⟩
          rw [List.getElem?_set_self', horders1b]
          rfl
        · by_cases hpi : p = incomingId
          · subst hpi
            refine ⟨{ inO with quantity := inO.quantity - min inO.quantity b.2.quantity }, ?_⟩
            rw [List.getElem?_set_ne hne2, List.getElem?_set_self', hin]
            rfl
          · refine ⟨px.2, ?_⟩
            rw [List.getElem?_set_ne (fun hx => hpb hx.symm),
              List.getElem?_set_ne (fun hx => hpi hx.symm)]
            exact hpin
      obtain ⟨po, hpo⟩ := h2p
      have hbEq := tradeResult_eq_fill_prev book incomingId inO b.1 b.2 p
        (min inO.quantity b.2.quantity) hfill
      rw [hbps, hbEq] at hbook'
      have hord : book'.orders = setNext ((book.orders.set incomingId
          { inO with quantity := inO.quantity - min inO.quantity b.2.quantity }).set b.1
          { b.2 with quantity := b.2.quantity - min inO.quantity b.2.quantity }) p b.2.next := by
        rw [hbook']
      have hhd : book'.head = book.head := by rw [hbook']
      refine ⟨hhd, ?_, ?_⟩
      · rw [hord, setNext_lookup_self _ p b.2.next po hpo]
        rfl
      · intro j hjp
        rw [hord, setNext_lookup_ne _ p b.2.next j hjp]
        exact hnext2 j

/-- C8: the matching sweep terminates on every finite book — the fuel
derived from the total remaining quantity and the chain length suffices —
and on a book with no crossable opposite pair it returns with zero trades
and the book unchanged. -/
theorem c8_termination_quiescence (book : OrderBook) (l : List (Nat × Order))
    (hchain : chainPairs book.orders book.head book.orders.length = some l)
    (hnodup : (l.map Prod.fst).Nodup) :
    (∃ book' trs, process_orders book
        (l.length + totalQty book * (book.orders.length + 1) + 1) =
          some (book', trs)) ∧
    ((∀ x ∈ l, ∀ y ∈ l, 0 < x.2.quantity → 0 < y.2.quantity →
        eligible x.2 y.2 = false) →
      process_orders book
        (l.length + totalQty book * (book.orders.length + 1) + 1) =
          some (book, [])) := by
  constructor
  · exact processLoop_total (totalQty book) book l [] l book.head []
      (l.length + totalQty book * (book.orders.length + 1) + 1)
      (le_refl _) hchain hnodup (by simp) hchain (by omega)
  · intro hnc
    exact processLoop_quiescent book l hchain hnc l [] book.head []
      (l.length + totalQty book * (book.orders.length + 1) + 1)
      (by simp) hchain (by omega)

/-- C10: a trade mutates at most two orders' quantities — the incoming
order's and the selected candidate's; every other order's quantity and
every order's type, ticker and price are unchanged; the candidate is never
the incoming order itself, and an incoming order that rests in the chain
with positive quantity stays reachable from head after the trade — in
particular a fully filled incoming order is still returned by
`get_order_list`. -/
theorem c10_frame_and_incoming_reachable (book : OrderBook)
    (incomingId fuel : Nat) (book' : OrderBook) (tr : Trade)
    (h : match_order book incomingId fuel = some (book', true, some tr)) :
    tr.candidate ≠ incomingId ∧
    (∀ j : Nat, j ≠ incomingId → j ≠ tr.candidate →
      (book'.orders[j]?).map Order.quantity =
        (book.orders[j]?).map Order.quantity) ∧
    (∀ j : Nat,
      (book'.orders[j]?).map Order.type = (book.orders[j]?).map Order.type ∧
      (book'.orders[j]?).map Order.ticker = (book.orders[j]?).map Order.ticker ∧
      (book'.orders[j]?).map Order.price = (book.orders[j]?).map Order.price) ∧
    (∀ l, chainPairs book.orders book.head fuel = some l →
      (l.map Prod.fst).Nodup →
      ∀ x ∈ l, x.1 = incomingId → 0 < x.2.quantity →
      ∃ ids, get_order_list book' fuel = some ids ∧ incomingId ∈ ids) := by
  rcases match_order_frame book incomingId fuel book' tr h with
    ⟨inO, bo, hin, hb, hbpos, _, hne, _, _, _, _, _, hq3, hfields⟩
  refine ⟨hne, hq3, hfields, ?_⟩
  intro l hchain hnodup x hx hxid hxpos
  rcases match_order_chain book incomingId fuel l hchain hnodup book' tr h with
    ⟨_, l', hl', _, hsurv, _⟩
  have hxin : x.1 ∈ l'.map Prod.fst :=
    hsurv x hx hxpos (by rw [hxid]; exact fun hEq => hne hEq.symm)
  refine ⟨l'.map Prod.fst,
    orderListLoop_eq_chain book'.orders fuel book'.head l' hl', ?_⟩
  rw [← hxid]
  exact hxin

/-- The stored incoming BUY order of `bW` (heap slot 1). -/
def inW : Order := ⟨OrderType.BUY, 1, 5, 12, some 0⟩

/-- The resting SELL order of `bW` (heap slot 0). -/
def oS : Order := ⟨OrderType.SELL, 1, 5, 10, none⟩

/-- The trade produced by matching order 1 of `bW`. -/
def trW : Trade := ⟨0, 5, 10⟩

/-- The book after matching order 1 of `bW`. -/
def bWF : OrderBook := ((match_order bW 1 2).getD (OrderBook.empty, false, none)).1

/-- The chain of `bC5d`, head to tail. -/
def lC5 : List (Nat × Order) :=
  [(1, ⟨OrderType.BUY, 1, 0, 105, some 0⟩), (0, ⟨OrderType.SELL, 1, 20, 100, none⟩)]

/-- The scan characterisation evaluated on the two-order book `bW`. -/
theorem c1_scan_characterization_witness :
    ∃ res, findLoop bW.orders inW 2 bW.head none none none = some res ∧
      ((res.1 = none ∧
          ∀ x ∈ lW, ¬ (0 < x.2.quantity ∧ EligibleSpec inW x.2)) ∨
       (∃ B l1 l2, res.1 = some B ∧ lW = l1 ++ B :: l2 ∧
          0 < B.2.quantity ∧ EligibleSpec inW B.2 ∧
          (∀ x ∈ lW, 0 < x.2.quantity → EligibleSpec inW x.2 →
            (inW.type = OrderType.BUY → B.2.price ≤ x.2.price) ∧
            (inW.type = OrderType.SELL → x.2.price ≤ B.2.price)) ∧
          (∀ x ∈ l1, 0 < x.2.quantity → EligibleSpec inW x.2 →
            strictlyBetter inW B.2.price x.2.price))) :=
  c1_scan_characterization bW inW 2 lW (by decide)

/-- Trade conservation evaluated on the trade of `bW`. -/
theorem c2_trade_conservation_witness :
    ∃ inO bo, bW.orders[(1 : Nat)]? = some inO ∧
      bW.orders[trW.candidate]? = some bo ∧
      trW.qty = min inO.quantity bo.quantity ∧
      (∃ q', (bWF.orders[(1 : Nat)]?).map Order.quantity = some q' ∧
        q' + trW.qty = inO.quantity) ∧
      (∃ q', (bWF.orders[trW.candidate]?).map Order.quantity = some q' ∧
        q' + trW.qty = bo.quantity) ∧
      trW.price = bo.price ∧
      (inO.type = OrderType.BUY → bo.price ≤ inO.price) ∧
      (inO.type = OrderType.SELL → inO.price ≤ bo.price) :=
  c2_trade_conservation bW 1 2 bWF trW (by decide)

/-- The snapshot description evaluated on the end state `bC5d`. -/
theorem c5_snapshot_amended_witness :
    get_order_list bC5d 5 = some (lC5.map Prod.fst) ∧
    display_rows bC5d 5 =
      some ((lC5.filter (fun x => decide (0 < x.2.quantity))).map Prod.fst) ∧
    (∀ x ∈ lC5, x.2.quantity = 0 →
      x.1 ∈ lC5.map Prod.fst ∧
      ∀ rows, display_rows bC5d 5 = some rows → x.1 ∉ rows) :=
  c5_snapshot_amended bC5d 5 lC5 (by decide)

/-- The scan/unlink description evaluated on `bW`, whose scan selects the
resting SELL at slot 0 with recorded predecessor 1. -/
theorem c6_scan_prev_amended_witness :
    ∃ l1 l2, lW = l1 ++ (0, oS) :: l2 ∧
      some 1 = lastPosFrom none l1 ∧
      ((∀ x ∈ l1, x.2.quantity ≤ 0) ↔ (some 1 : Option Nat) = none) ∧
      (bW.head = some (0, oS).1 → (some 1 : Option Nat) = none) ∧
      (∀ p, (some 1 : Option Nat) = some p →
        ∃ x ∈ l1, x.1 = p ∧ 0 < x.2.quantity) ∧
      (∀ (book' : OrderBook) (tr : Trade),
        match_order bW 1 2 = some (book', true, some tr) →
        tr.candidate = (0, oS).1 ∧
        tr.qty = min inW.quantity (0, oS).2.quantity ∧
        ((0, oS).2.quantity - tr.qty = 0 →
          ((some 1 : Option Nat) = none →
            book'.head =
              (if bW.head = some (0, oS).1 then (0, oS).2.next else bW.head) ∧
            ∀ j : Nat, (book'.orders[j]?).map Order.next =
              (bW.orders[j]?).map Order.next) ∧
          (∀ p, (some 1 : Option Nat) = some p →
            book'.head = bW.head ∧
            (book'.orders[p]?).map Order.next = some (0, oS).2.next ∧
            ∀ j : Nat, j ≠ p → (book'.orders[j]?).map Order.next =
              (bW.orders[j]?).map Order.next))) :=
  c6_scan_prev_amended bW 1 2 inW lW (0, oS) (some 1)
    (by decide) (by decide) (by decide) (by decide)

/-- The totality and false-frame description evaluated on `bW`. -/
theorem c7_no_raise_false_frame_witness :
    ∃ book' ok tr, match_order bW 1 2 = some (book', ok, tr) ∧
      (ok = false → book' = bW ∧ tr = none) ∧
      ((∀ x ∈ lW, ¬ (0 < x.2.quantity ∧ EligibleSpec inW x.2)) →
        book' = bW ∧ ok = false ∧ tr = none) ∧
      (∀ b bp, findLoop bW.orders inW 2 bW.head none none none =
          some (some b, bp) → min inW.quantity b.2.quantity = 0 →
        book' = bW ∧ ok = false ∧ tr = none) :=
  c7_no_raise_false_frame bW 1 2 inW lW (by decide) (by decide)

/-- Termination and quiescence evaluated on `bW` (fuel 2 + 10·3 + 1). -/
theorem c8_termination_quiescence_witness :
    (∃ book' trs, process_orders bW
        (lW.length + totalQty bW * (bW.orders.length + 1) + 1) =
          some (book', trs)) ∧
    ((∀ x ∈ lW, ∀ y ∈ lW, 0 < x.2.quantity → 0 < y.2.quantity →
        eligible x.2 y.2 = false) →
      process_orders bW
        (lW.length + totalQty bW * (bW.orders.length + 1) + 1) =
          some (bW, [])) :=
  c8_termination_quiescence bW lW (by decide) (by decide)

/-- The frame description evaluated on the trade of `bW`. -/
theorem c10_frame_and_incoming_reachable_witness :
    trW.candidate ≠ 1 ∧
    (∀ j : Nat, j ≠ 1 → j ≠ trW.candidate →
      (bWF.orders[j]?).map Order.quantity =
        (bW.orders[j]?).map Order.quantity) ∧
    (∀ j : Nat,
      (bWF.orders[j]?).map Order.type = (bW.orders[j]?).map Order.type ∧
      (bWF.orders[j]?).map Order.ticker = (bW.orders[j]?).map Order.ticker ∧
      (bWF.orders[j]?).map Order.price = (bW.orders[j]?).map Order.price) ∧
    (∀ l, chainPairs bW.orders bW.head 2 = some l →
      (l.map Prod.fst).Nodup →
      ∀ x ∈ l, x.1 = 1 → 0 < x.2.quantity →
      ∃ ids, get_order_list bWF 2 = some ids ∧ (1 : Nat) ∈ ids) :=
  c10_frame_and_incoming_reachable bW 1 2 bWF trW (by decide)

end StockEngine

















